import Mathlib

/-!
Shallow embedding of the Magnum `SceneGraph::Object` transformation core
(`src/SceneGraph/Object.hpp`): the uncached `absoluteTransformation` walk,
the batched joint-reduction solver `transformations` /
`computeJointTransformation`, the dirty-propagation `setDirty`, and the
reparenting operation `setParent`.

Nodes are natural numbers.  For the batch-solver part the tree shape is
fixed during a query, and parents have strictly smaller ids (any finite
forest can be numbered this way), which makes the upward walks
structurally terminating.  The per-node `Flag::Visited` / `Flag::Joint`
bits and the 16-bit `counter` field are modelled as explicit state that
every phase of the solver threads through, and the `CORRADE_ASSERT`
early exits are modelled as error results that carry the state reached
at the moment of the failure.  Transformation values are a parameter
type `M` with a composition operation `comp`; a composition counter in
the state instruments every `Transformation::compose` call site of the
solver.
-/

namespace Magnum

/-- Pointwise update of a function on nodes. -/
def updF {α : Type} (f : Nat → α) (x : Nat) (v : α) : Nat → α :=
  fun y => if y = x then v else f y

theorem updF_same {α : Type} (f : Nat → α) (x : Nat) (v : α) : updF f x v x = v := by
  simp [updF]

theorem updF_other {α : Type} (f : Nat → α) (x : Nat) (v : α) (y : Nat) (h : y ≠ x) :
    updF f x v y = f y := by
  simp [updF, h]

/-- The unset value of the 16-bit per-object `counter` field (`0xFFFFu`). -/
def NOCOUNTER : Nat := 65535

/-- The tree shape used by a batch query: parent links (a parent always has a
smaller id, which encodes acyclicity) and the `isScene` predicate of the
`Scene` subclass. -/
structure Tree where
  parent : Nat → Option Nat
  isScene : Nat → Bool
  parent_lt : ∀ n p, parent n = some p → p < n

/-- `Object::absoluteTransformation()`: compose the parent's absolute
transformation with the node's own transformation; a parentless node returns
its own transformation. -/
def absT {M : Type} (comp : M → M → M) (tr : Nat → M) (t : Tree) (n : Nat) : M :=
  match h : t.parent n with
  | none => tr n
  | some p => comp (absT comp tr t p) (tr n)
termination_by n
decreasing_by exact t.parent_lt n p h

/-- The parentless root above a node (the end of the ancestor chain). -/
def rootOf (t : Tree) (n : Nat) : Nat :=
  match h : t.parent n with
  | none => n
  | some p => rootOf t p
termination_by n
decreasing_by exact t.parent_lt n p h

/-- `Object::sceneObject()`: walk up until a node with `isScene`; `none` if the
chain ends without meeting one. -/
def sceneObject (t : Tree) (n : Nat) : Option Nat :=
  if t.isScene n then some n
  else
    match h : t.parent n with
    | none => none
    | some p => sceneObject t p
termination_by n
decreasing_by exact t.parent_lt n p h

/-- The ancestor-or-self chain of a node, bottom to top. -/
def chainList (t : Tree) (n : Nat) : List Nat :=
  match h : t.parent n with
  | none => [n]
  | some p => n :: chainList t p
termination_by n
decreasing_by exact t.parent_lt n p h

/-- The transient per-object marks used by one batch query: the `Visited` and
`Joint` flag bits, the 16-bit `counter`, plus an instrumentation counter for
`Transformation::compose` calls. -/
structure BSt where
  visited : Nat → Bool
  joint : Nat → Bool
  counter : Nat → Nat
  ccount : Nat

/-- The clean mark state every query is supposed to start from. -/
def cleanSt : BSt :=
  { visited := fun _ => false, joint := fun _ => false,
    counter := fun _ => NOCOUNTER, ccount := 0 }

/-- The errors of the batch solver's `CORRADE_ASSERT` early exits. -/
inductive BErr where
  | tooLargeScene : BErr
  | notScene : BErr
  | notSameTree : BErr
deriving DecidableEq

/-- The joint-marking loop of `Object::transformations`: each target whose
counter is still unset gets its position as counter and the `Joint` flag;
later duplicate occurrences are skipped. -/
def markJoints (st : BSt) : List Nat → Nat → BSt
  | [], _ => st
  | x :: rest, i =>
    let st' :=
      if st.counter x ≠ NOCOUNTER then st
      else { st with counter := updF st.counter x i, joint := updF st.joint x true }
    markJoints st' rest (i + 1)

/-- One branch of the ancestor walk of `Object::transformations`: starting at a
worklist entry, repeatedly mark the current node visited and move to its
parent, stopping when the parent is visited or a joint (promoting a visited
non-joint parent to a joint, guarded by the 16-bit capacity check) or when a
parentless node is reached (which must be the scene).  The C++ loop keeps the
iterator on the same slot while walking up, so the whole worklist loop is this
walk run once per target in order. -/
def walkUp (t : Tree) (a : Nat) (n : Nat) (st : BSt) (jo : List Nat) :
    Option BErr × BSt × List Nat :=
  if st.visited n then (none, st, jo)
  else
    let st1 : BSt := { st with visited := updF st.visited n true }
    match h : t.parent n with
    | none => if n = a then (none, st1, jo) else (some BErr.notSameTree, st1, jo)
    | some p =>
      if st1.joint p then (none, st1, jo)
      else if st1.visited p then
        if jo.length < NOCOUNTER then
          (none,
           { st1 with counter := updF st1.counter p jo.length,
                      joint := updF st1.joint p true },
           jo ++ [p])
        else (some BErr.tooLargeScene, st1, jo)
      else walkUp t a p st1 jo
termination_by n
decreasing_by exact t.parent_lt n p h

/-- The full ancestor walk: run `walkUp` on each worklist entry in order,
stopping at the first assertion failure. -/
def walkAll (t : Tree) (a : Nat) : List Nat → BSt → List Nat →
    Option BErr × BSt × List Nat
  | [], st, jo => (none, st, jo)
  | x :: rest, st, jo =>
    match walkUp t a x st jo with
    | (some e, st', jo') => (some e, st', jo')
    | (none, st', jo') => walkAll t a rest st' jo'

mutual

/-- `Object::computeJointTransformation`: if the joint's object is no longer
visited its transformation is already computed and is returned as is;
otherwise initialize the slot with the object's own transformation and climb.
The fuel argument bounds the recursion through parent joints (the C++
recursion is bounded by the joint count of a well-formed query). -/
def computeJointTransformation {M : Type} (comp : M → M → M) (dflt : M) (tr : Nat → M)
    (t : Tree) (init : M) (jo : List Nat) :
    Nat → Nat → BSt → List M → BSt × List M
  | 0, _, st, jt => (st, jt)
  | fuel + 1, j, st, jt =>
    let o := jo.getD j 0
    if st.visited o then
      cjtClimb comp dflt tr t init jo fuel o j st (jt.set j (tr o))
    else (st, jt)
termination_by fuel _ _ _ => (fuel, 0)
decreasing_by exact Prod.Lex.left _ _ (Nat.lt_succ_self _)

/-- The upward loop of `computeJointTransformation`: clear the visited mark of
the current node, then either compose with the initial transformation (at the
parentless scene), recursively compute and compose a parent joint's
transformation, or compose the parent's own transformation and continue
upward.  Every branch performs exactly one composition per cleared node. -/
def cjtClimb {M : Type} (comp : M → M → M) (dflt : M) (tr : Nat → M)
    (t : Tree) (init : M) (jo : List Nat) :
    Nat → Nat → Nat → BSt → List M → BSt × List M
  | fuel, o, j, st, jt =>
    let st1 : BSt := { st with visited := updF st.visited o false }
    match h : t.parent o with
    | none =>
      ({ st1 with ccount := st1.ccount + 1 },
       jt.set j (comp init (jt.getD j dflt)))
    | some p =>
      if st1.joint p then
        let r := computeJointTransformation comp dflt tr t init jo fuel (st1.counter p) st1 jt
        ({ r.1 with ccount := r.1.ccount + 1 },
         r.2.set j (comp (r.2.getD (st1.counter p) dflt) (r.2.getD j dflt)))
      else
        cjtClimb comp dflt tr t init jo fuel p j
          { st1 with ccount := st1.ccount + 1 }
          (jt.set j (comp (tr p) (jt.getD j dflt)))
termination_by fuel o _ _ _ => (fuel, o + 1)
decreasing_by
  · exact Prod.Lex.right _ (Nat.succ_pos _)
  · exact Prod.Lex.right _ (Nat.succ_lt_succ (t.parent_lt o p h))

end

/-- The driver loop computing every joint's transformation in index order. -/
def computeAll {M : Type} (comp : M → M → M) (dflt : M) (tr : Nat → M)
    (t : Tree) (init : M) (jo : List Nat) : Nat → BSt → List M → BSt × List M
  | i, st, jt =>
    if h : i < jo.length then
      let r := computeJointTransformation comp dflt tr t init jo (jo.length + 1) i st jt
      computeAll comp dflt tr t init jo (i + 1) r.1 r.2
    else (st, jt)
termination_by i => jo.length - i
decreasing_by omega

/-- The duplicate-resolution loop: every original position whose object's
counter differs from the position copies the transformation computed at the
counter's position. -/
def resolveDup {M : Type} (dflt : M) (jo : List Nat) (st : BSt) :
    Nat → Nat → List M → List M
  | i, cnt, jt =>
    if h : i < cnt then
      let jt' :=
        if st.counter (jo.getD i 0) ≠ i then
          jt.set i (jt.getD (st.counter (jo.getD i 0)) dflt)
        else jt
      resolveDup dflt jo st (i + 1) cnt jt'
    else jt
termination_by i cnt => cnt - i
decreasing_by omega

/-- The cleanup loop: clear the joint mark and counter of every object of the
`jointObjects` list. -/
def cleanupMarks (jo : List Nat) (st : BSt) : BSt :=
  jo.foldl
    (fun s n =>
      { s with joint := updF s.joint n false, counter := updF s.counter n NOCOUNTER })
    st

/-- `Object::transformations(objects, initialTransformation)` called on the
object `a`: capacity check, joint marking, the anchor-must-be-the-scene check,
the ancestor walk, per-joint computation, duplicate resolution, cleanup, and
the final shrink to the original target count.  The result pairs the returned
list (or the assertion error) with the mark state at the moment of return. -/
def transformations {M : Type} (comp : M → M → M) (dflt : M) (tr : Nat → M)
    (t : Tree) (a : Nat) (targets : List Nat) (init : M) (st0 : BSt) :
    Except BErr (List M) × BSt :=
  if NOCOUNTER ≤ targets.length then (Except.error BErr.tooLargeScene, st0)
  else
    let objectCount := targets.length
    let st1 := markJoints st0 targets 0
    if sceneObject t a = some a then
      match walkAll t a targets st1 targets with
      | (some e, st2, _) => (Except.error e, st2)
      | (none, st2, jo) =>
        let jt0 : List M := List.replicate jo.length dflt
        let r := computeAll comp dflt tr t init jo 0 st2 jt0
        let jt2 := resolveDup dflt jo r.1 0 objectCount r.2
        let st4 := cleanupMarks jo r.1
        (Except.ok (jt2.take objectCount), st4)
    else (Except.error BErr.notScene, st1)

/-!
The mutable-tree model used by `setDirty` and `setParent`.  Parent links are a
list indexed by node id (so only nodes below `size` can have a parent), and
reparenting may point a node at any other node, so the upward walks are
fuel-bounded; the well-formedness predicate `WFb` states that every node's
parent chain dies out within `size` steps, which makes fuel `size + 1`
sufficient everywhere.  `featDirty n = true` models that node `n`'s attached
features have had their caches invalidated.  Modelled from the spec: the
`AbstractFeature::markDirty` hook (its class is not part of the sources here)
is represented by this single per-node invalidation flag, and the
`Corrade::Containers::LinkedList` child links are represented by the derived
child set `childrenOf` (the spec leaves child order unobservable). -/

structure GState (M : Type) where
  parents : List (Option Nat)
  isScene : Nat → Bool
  tr : Nat → M
  dirty : Nat → Bool
  featDirty : Nat → Bool

namespace GState

/-- Number of nodes. -/
def size {M : Type} (s : GState M) : Nat := s.parents.length

/-- The parent link of a node (nodes outside the arena have none). -/
def parent {M : Type} (s : GState M) (n : Nat) : Option Nat :=
  s.parents.getD n none

end GState

/-- The `k`-fold parent of a node (`some m` for `k = 0`). -/
def parentIter {M : Type} (s : GState M) : Nat → Nat → Option Nat
  | 0, m => some m
  | k + 1, m =>
    match parentIter s k m with
    | none => none
    | some x => s.parent x

/-- The children of a node, derived from the parent links. -/
def childrenOf {M : Type} (s : GState M) (n : Nat) : List Nat :=
  (List.range s.size).filter (fun c => s.parent c = some n)

mutual

/-- `Object::setDirty()`: if the node is already dirty return immediately;
otherwise mark all its features dirty, recursively mark every child subtree
dirty, and finally set the node's own dirty flag. -/
def setDirtyF {M : Type} : Nat → Nat → GState M → GState M
  | 0, _, s => s
  | fuel + 1, n, s =>
    if s.dirty n then s
    else
      let s1 : GState M := { s with featDirty := updF s.featDirty n true }
      let s2 := setDirtyList fuel (childrenOf s1 n) s1
      { s2 with dirty := updF s2.dirty n true }
termination_by fuel _ _ => (fuel, 0)
decreasing_by exact Prod.Lex.left _ _ (Nat.lt_succ_self _)

/-- `setDirty` applied to a list of children in order. -/
def setDirtyList {M : Type} : Nat → List Nat → GState M → GState M
  | _, [], s => s
  | fuel, c :: cs, s => setDirtyList fuel cs (setDirtyF fuel c s)
termination_by fuel cs _ => (fuel, cs.length + 1)
decreasing_by
  · exact Prod.Lex.right _ (Nat.succ_pos _)
  · exact Prod.Lex.right _ (Nat.lt_succ_self _)

end

/-- `setDirty` with the fuel that suffices on every well-formed state. -/
def setDirty {M : Type} (s : GState M) (n : Nat) : GState M :=
  setDirtyF (s.size + 1) n s

/-- The cycle-prevention walk of `Object::setParent`: starting at the new
parent, walk up the parent chain checking for the node itself. -/
def isAncestorOfB {M : Type} (s : GState M) : Nat → Nat → Option Nat → Bool
  | _, _, none => false
  | 0, _, some _ => false
  | fuel + 1, n, some p => if p = n then true else isAncestorOfB s fuel n (s.parent p)

/-- `Object::setParent(parent)`: a no-op when the argument is already the
parent or the object is the scene or the argument lies in the object's own
subtree; otherwise relink (cut from the old parent's child list and insert
into the new one, here: update the parent link) and `setDirty`. -/
def setParentF {M : Type} (s : GState M) (n : Nat) (np : Option Nat) : GState M :=
  if s.parent n = np ∨ s.isScene n = true then s
  else if isAncestorOfB s (s.size + 1) n np then s
  else
    let s1 : GState M := { s with parents := s.parents.set n np }
    setDirty s1 n

/-- Does the parent chain starting at the given position die out within the
given fuel? -/
def reachesRootB {M : Type} (s : GState M) : Nat → Option Nat → Bool
  | _, none => true
  | 0, some _ => false
  | fuel + 1, some p => reachesRootB s fuel (s.parent p)

/-- Well-formedness of a mutable tree state: parents stay inside the arena and
every parent chain reaches a parentless node within `size` steps (which is
exactly acyclicity for an arena of `size` nodes). -/
def WFb {M : Type} (s : GState M) : Bool :=
  (List.range s.size).all fun n =>
    (match s.parent n with
     | none => true
     | some p => decide (p < s.size)) &&
    reachesRootB s s.size (some n)

/-- The dirty-propagation closure invariant of reachable states: a dirty
node's features are invalidated and its children are all dirty. -/
def DirtyOKb {M : Type} (s : GState M) : Bool :=
  (List.range s.size).all fun n =>
    !(s.dirty n) || (s.featDirty n && (childrenOf s n).all fun c => s.dirty c)

/-! ### List access helpers -/

theorem getD_set_self {α : Type} (l : List α) (i : Nat) (v d : α) (h : i < l.length) :
    (l.set i v).getD i d = v := by
  simp [List.getD_eq_getElem?_getD, List.getElem?_set_self, h]

theorem getD_set_ne {α : Type} (l : List α) (i j : Nat) (v d : α) (h : j ≠ i) :
    (l.set i v).getD j d = l.getD j d := by
  simp [List.getD_eq_getElem?_getD, List.getElem?_set_ne, Ne.symm h]

theorem getD_append_left {α : Type} (l l' : List α) (i : Nat) (d : α) (h : i < l.length) :
    ((l ++ l').getD i d) = l.getD i d := by
  simp [List.getD_eq_getElem?_getD, List.getElem?_append_left, h]

theorem getD_append_last {α : Type} (l : List α) (x d : α) :
    (l ++ [x]).getD l.length d = x := by
  simp [List.getD_eq_getElem?_getD]

theorem getD_take_of_lt {α : Type} (l : List α) (n i : Nat) (d : α) (h : i < n) :
    (l.take n).getD i d = l.getD i d := by
  simp [List.getD_eq_getElem?_getD, List.getElem?_take, h]

theorem getD_replicate_of_lt {α : Type} (n i : Nat) (a d : α) (h : i < n) :
    (List.replicate n a).getD i d = a := by
  simp [List.getD_eq_getElem?_getD, List.getElem?_replicate, h]

theorem getD_mem {α : Type} (l : List α) (i : Nat) (d : α) (h : i < l.length) :
    l.getD i d ∈ l := by
  have h2 : l.getD i d = l[i] := by
    simp [List.getD_eq_getElem?_getD, List.getElem?_eq_getElem, h]
  rw [h2]
  exact List.getElem_mem h

/-! ### Step equations for the batch-solver recursions -/

theorem walkUp_visited (t : Tree) (a n : Nat) (st : BSt) (jo : List Nat)
    (hv : st.visited n = true) : walkUp t a n st jo = (none, st, jo) := by
  rw [walkUp]; simp [hv]

theorem walkUp_root (t : Tree) (a n : Nat) (st : BSt) (jo : List Nat)
    (hv : st.visited n = false) (hp : t.parent n = none) :
    walkUp t a n st jo =
      (if n = a then none else some BErr.notSameTree,
       { st with visited := updF st.visited n true }, jo) := by
  rw [walkUp]
  simp only [hv, Bool.false_eq_true, if_false]
  split
  · split <;> rfl
  · next p heq => rw [hp] at heq; cases heq

theorem walkUp_stopJoint (t : Tree) (a n p : Nat) (st : BSt) (jo : List Nat)
    (hv : st.visited n = false) (hp : t.parent n = some p) (hj : st.joint p = true) :
    walkUp t a n st jo = (none, { st with visited := updF st.visited n true }, jo) := by
  rw [walkUp]
  simp only [hv, Bool.false_eq_true, if_false]
  split
  · next heq => rw [hp] at heq; cases heq
  · next p' heq => rw [hp] at heq; cases heq; simp [hj]

theorem walkUp_promote (t : Tree) (a n p : Nat) (st : BSt) (jo : List Nat)
    (hv : st.visited n = false) (hp : t.parent n = some p) (hj : st.joint p = false)
    (hvp : st.visited p = true) (hcap : jo.length < NOCOUNTER) :
    walkUp t a n st jo =
      (none,
       { st with visited := updF st.visited n true,
                 joint := updF st.joint p true,
                 counter := updF st.counter p jo.length },
       jo ++ [p]) := by
  rw [walkUp]
  simp only [hv, Bool.false_eq_true, if_false]
  split
  · next heq => rw [hp] at heq; cases heq
  · next p' heq =>
    rw [hp] at heq; cases heq
    simp [hj, updF, hvp, hcap]

theorem walkUp_promoteFail (t : Tree) (a n p : Nat) (st : BSt) (jo : List Nat)
    (hv : st.visited n = false) (hp : t.parent n = some p) (hj : st.joint p = false)
    (hvp : st.visited p = true) (hcap : ¬ jo.length < NOCOUNTER) :
    walkUp t a n st jo =
      (some BErr.tooLargeScene, { st with visited := updF st.visited n true }, jo) := by
  rw [walkUp]
  simp only [hv, Bool.false_eq_true, if_false]
  split
  · next heq => rw [hp] at heq; cases heq
  · next p' heq =>
    rw [hp] at heq; cases heq
    simp [hj, updF, hvp, hcap]

theorem walkUp_climb (t : Tree) (a n p : Nat) (st : BSt) (jo : List Nat)
    (hv : st.visited n = false) (hp : t.parent n = some p) (hj : st.joint p = false)
    (hvp : st.visited p = false) (hpn : p ≠ n) :
    walkUp t a n st jo = walkUp t a p { st with visited := updF st.visited n true } jo := by
  rw [walkUp]
  simp only [hv, Bool.false_eq_true, if_false]
  split
  · next heq => rw [hp] at heq; cases heq
  · next p' heq =>
    rw [hp] at heq; cases heq
    simp [hj, updF, hvp, hpn]

theorem cjt_zero {M : Type} (comp : M → M → M) (dflt : M) (tr : Nat → M) (t : Tree)
    (init : M) (jo : List Nat) (j : Nat) (st : BSt) (jt : List M) :
    computeJointTransformation comp dflt tr t init jo 0 j st jt = (st, jt) := by
  rw [computeJointTransformation]

theorem cjt_done {M : Type} (comp : M → M → M) (dflt : M) (tr : Nat → M) (t : Tree)
    (init : M) (jo : List Nat) (j : Nat) (st : BSt) (jt : List M) (fuel : Nat)
    (h : st.visited (jo.getD j 0) = false) :
    computeJointTransformation comp dflt tr t init jo (fuel + 1) j st jt = (st, jt) := by
  rw [computeJointTransformation]
  simp only [h, Bool.false_eq_true, if_false]

theorem cjt_enter {M : Type} (comp : M → M → M) (dflt : M) (tr : Nat → M) (t : Tree)
    (init : M) (jo : List Nat) (j : Nat) (st : BSt) (jt : List M) (fuel : Nat)
    (h : st.visited (jo.getD j 0) = true) :
    computeJointTransformation comp dflt tr t init jo (fuel + 1) j st jt =
      cjtClimb comp dflt tr t init jo fuel (jo.getD j 0) j st
        (jt.set j (tr (jo.getD j 0))) := by
  rw [computeJointTransformation]
  simp only [h, if_true]

theorem climb_root {M : Type} (comp : M → M → M) (dflt : M) (tr : Nat → M) (t : Tree)
    (init : M) (jo : List Nat) (o j : Nat) (st : BSt) (jt : List M) (fuel : Nat)
    (hp : t.parent o = none) :
    cjtClimb comp dflt tr t init jo fuel o j st jt =
      ({ st with visited := updF st.visited o false, ccount := st.ccount + 1 },
       jt.set j (comp init (jt.getD j dflt))) := by
  rw [cjtClimb]
  split
  · rfl
  · next p heq => rw [hp] at heq; cases heq

theorem climb_step {M : Type} (comp : M → M → M) (dflt : M) (tr : Nat → M) (t : Tree)
    (init : M) (jo : List Nat) (o j p : Nat) (st : BSt) (jt : List M) (fuel : Nat)
    (hp : t.parent o = some p) (hj : st.joint p = false) :
    cjtClimb comp dflt tr t init jo fuel o j st jt =
      cjtClimb comp dflt tr t init jo fuel p j
        { st with visited := updF st.visited o false, ccount := st.ccount + 1 }
        (jt.set j (comp (tr p) (jt.getD j dflt))) := by
  rw [cjtClimb]
  split
  · next heq => rw [hp] at heq; cases heq
  · next p' heq =>
    rw [hp] at heq; cases heq
    simp only [hj, Bool.false_eq_true, if_false]

theorem climb_joint {M : Type} (comp : M → M → M) (dflt : M) (tr : Nat → M) (t : Tree)
    (init : M) (jo : List Nat) (o j p : Nat) (st : BSt) (jt : List M) (fuel : Nat)
    (hp : t.parent o = some p) (hj : st.joint p = true) :
    cjtClimb comp dflt tr t init jo fuel o j st jt =
      (let st1 : BSt := { st with visited := updF st.visited o false }
       let r := computeJointTransformation comp dflt tr t init jo fuel (st1.counter p) st1 jt
       ({ r.1 with ccount := r.1.ccount + 1 },
        r.2.set j (comp (r.2.getD (st1.counter p) dflt) (r.2.getD j dflt)))) := by
  rw [cjtClimb]
  split
  · next heq => rw [hp] at heq; cases heq
  · next p' heq =>
    rw [hp] at heq; cases heq
    simp only [hj, if_true]

theorem computeAll_stop {M : Type} (comp : M → M → M) (dflt : M) (tr : Nat → M) (t : Tree)
    (init : M) (jo : List Nat) (i : Nat) (st : BSt) (jt : List M) (h : ¬ i < jo.length) :
    computeAll comp dflt tr t init jo i st jt = (st, jt) := by
  rw [computeAll]
  simp only [h, dite_false]

theorem computeAll_step {M : Type} (comp : M → M → M) (dflt : M) (tr : Nat → M) (t : Tree)
    (init : M) (jo : List Nat) (i : Nat) (st : BSt) (jt : List M) (h : i < jo.length) :
    computeAll comp dflt tr t init jo i st jt =
      (let r := computeJointTransformation comp dflt tr t init jo (jo.length + 1) i st jt
       computeAll comp dflt tr t init jo (i + 1) r.1 r.2) := by
  rw [computeAll]
  simp only [h, dite_true]

theorem resolveDup_stop {M : Type} (dflt : M) (jo : List Nat) (st : BSt) (i cnt : Nat)
    (jt : List M) (h : ¬ i < cnt) : resolveDup dflt jo st i cnt jt = jt := by
  rw [resolveDup]
  simp only [h, dite_false]

theorem resolveDup_step {M : Type} (dflt : M) (jo : List Nat) (st : BSt) (i cnt : Nat)
    (jt : List M) (h : i < cnt) :
    resolveDup dflt jo st i cnt jt =
      resolveDup dflt jo st (i + 1) cnt
        (if st.counter (jo.getD i 0) ≠ i then
          jt.set i (jt.getD (st.counter (jo.getD i 0)) dflt)
        else jt) := by
  rw [resolveDup]
  simp only [h, dite_true]

/-! ### First-occurrence positions and the joint-marking loop -/

/-- The first position of a value in a list (the length if absent). -/
def firstIdx (x : Nat) : List Nat → Nat
  | [] => 0
  | y :: rest => if y = x then 0 else firstIdx x rest + 1

theorem firstIdx_lt (x : Nat) (ts : List Nat) (h : x ∈ ts) :
    firstIdx x ts < ts.length := by
  induction ts with
  | nil => cases h
  | cons y rest ih =>
    by_cases hyx : y = x
    · simp [firstIdx, hyx]
    · have hx : x ∈ rest := by
        cases h with
        | head => exact absurd rfl hyx
        | tail _ h' => exact h'
      simp only [firstIdx, hyx, if_false, List.length_cons]
      exact Nat.succ_lt_succ (ih hx)

theorem getD_firstIdx (x : Nat) (ts : List Nat) (h : x ∈ ts) :
    ts.getD (firstIdx x ts) 0 = x := by
  induction ts with
  | nil => cases h
  | cons y rest ih =>
    by_cases hyx : y = x
    · simp [firstIdx, hyx]
    · have hx : x ∈ rest := by
        cases h with
        | head => exact absurd rfl hyx
        | tail _ h' => exact h'
      simp only [firstIdx, hyx, if_false, List.getD_cons_succ]
      exact ih hx

theorem firstIdx_le (x : Nat) (ts : List Nat) (i : Nat) (hi : i < ts.length)
    (hx : ts.getD i 0 = x) : firstIdx x ts ≤ i := by
  induction ts generalizing i with
  | nil => simp at hi
  | cons y rest ih =>
    by_cases hyx : y = x
    · simp [firstIdx, hyx]
    · cases i with
      | zero => simp [List.getD_cons_zero] at hx; exact absurd hx hyx
      | succ i' =>
        simp only [firstIdx, hyx, if_false]
        simp only [List.getD_cons_succ] at hx
        simp only [List.length_cons] at hi
        exact Nat.succ_le_succ (ih i' (Nat.lt_of_succ_lt_succ hi) hx)

theorem markJoints_visited (ts : List Nat) :
    ∀ i st, (markJoints st ts i).visited = st.visited := by
  induction ts with
  | nil => intro i st; rfl
  | cons x rest ih =>
    intro i st
    simp only [markJoints]
    split <;> exact ih _ _

theorem markJoints_ccount (ts : List Nat) :
    ∀ i st, (markJoints st ts i).ccount = st.ccount := by
  induction ts with
  | nil => intro i st; rfl
  | cons x rest ih =>
    intro i st
    simp only [markJoints]
    split <;> exact ih _ _

theorem markJoints_counter (ts : List Nat) :
    ∀ i st n, i + ts.length ≤ NOCOUNTER →
      (markJoints st ts i).counter n =
        if st.counter n = NOCOUNTER ∧ n ∈ ts then i + firstIdx n ts
        else st.counter n := by
  induction ts with
  | nil => intro i st n _; simp [markJoints]
  | cons x rest ih =>
    intro i st n hle
    have hle' : (i + 1) + rest.length ≤ NOCOUNTER := by
      simp only [List.length_cons] at hle; omega
    have hiNOC : i ≠ NOCOUNTER := by
      simp only [List.length_cons] at hle; omega
    simp only [markJoints]
    by_cases hcx : st.counter x = NOCOUNTER
    · simp only [hcx, ne_eq, not_true_eq_false, if_false]
      rw [ih (i + 1) _ n hle']
      dsimp only
      by_cases hn : n = x
      · subst hn
        rw [updF_same]
        rw [if_neg (fun hc => hiNOC hc.1)]
        rw [if_pos ⟨hcx, List.mem_cons_self _ _⟩]
        have hfi : firstIdx n (n :: rest) = 0 := by simp [firstIdx]
        rw [hfi]
        omega
      · rw [updF_other _ _ _ _ hn]
        by_cases hcn : st.counter n = NOCOUNTER
        · by_cases hmem : n ∈ rest
          · have hmem' : n ∈ x :: rest := List.mem_cons_of_mem _ hmem
            have hfi : firstIdx n (x :: rest) = firstIdx n rest + 1 := by
              simp only [firstIdx]
              rw [if_neg (fun h : x = n => hn h.symm)]
            rw [if_pos ⟨hcn, hmem⟩, if_pos ⟨hcn, hmem'⟩, hfi]
            omega
          · have hmem' : n ∉ x :: rest := by
              intro hc
              cases hc with
              | head => exact hn rfl
              | tail _ h' => exact hmem h'
            rw [if_neg (fun hc => hmem hc.2), if_neg (fun hc => hmem' hc.2)]
        · rw [if_neg (fun hc => hcn hc.1), if_neg (fun hc => hcn hc.1)]
    · simp only [hcx, ne_eq, not_false_eq_true, if_true]
      rw [ih (i + 1) st n hle']
      by_cases hn : n = x
      · subst hn
        rw [if_neg (fun hc => hcx hc.1), if_neg (fun hc => hcx hc.1)]
      · by_cases hcn : st.counter n = NOCOUNTER
        · by_cases hmem : n ∈ rest
          · have hmem' : n ∈ x :: rest := List.mem_cons_of_mem _ hmem
            have hfi : firstIdx n (x :: rest) = firstIdx n rest + 1 := by
              simp only [firstIdx]
              rw [if_neg (fun h : x = n => hn h.symm)]
            rw [if_pos ⟨hcn, hmem⟩, if_pos ⟨hcn, hmem'⟩, hfi]
            omega
          · have hmem' : n ∉ x :: rest := by
              intro hc
              cases hc with
              | head => exact hn rfl
              | tail _ h' => exact hmem h'
            rw [if_neg (fun hc => hmem hc.2), if_neg (fun hc => hmem' hc.2)]
        · rw [if_neg (fun hc => hcn hc.1), if_neg (fun hc => hcn hc.1)]

theorem markJoints_joint (ts : List Nat) :
    ∀ i st n,
      (markJoints st ts i).joint n =
        (st.joint n || (decide (st.counter n = NOCOUNTER) && decide (n ∈ ts))) := by
  induction ts with
  | nil => intro i st n; simp [markJoints]
  | cons x rest ih =>
    intro i st n
    simp only [markJoints]
    by_cases hcx : st.counter x = NOCOUNTER
    · simp only [hcx, ne_eq, not_true_eq_false, if_false]
      rw [ih (i + 1) _ n]
      dsimp only
      by_cases hn : n = x
      · subst hn
        rw [updF_same]
        simp [hcx]
      · rw [updF_other _ _ _ _ hn, updF_other _ _ _ _ hn]
        simp [List.mem_cons, hn]
    · simp only [hcx, ne_eq, not_false_eq_true, if_true]
      rw [ih (i + 1) st n]
      by_cases hn : n = x
      · subst hn
        simp [hcx]
      · simp [List.mem_cons, hn]

/-! ### Ancestor chains -/

theorem chainList_root (t : Tree) (n : Nat) (h : t.parent n = none) :
    chainList t n = [n] := by
  rw [chainList]
  split
  · rfl
  · next p heq => rw [h] at heq; cases heq

theorem chainList_parent (t : Tree) (n p : Nat) (h : t.parent n = some p) :
    chainList t n = n :: chainList t p := by
  rw [chainList]
  split
  · next heq => rw [h] at heq; cases heq
  · next p' heq => rw [h] at heq; cases heq; rfl

theorem chainList_self (t : Tree) (n : Nat) : n ∈ chainList t n := by
  match h : t.parent n with
  | none => rw [chainList_root t n h]; exact List.mem_singleton_self n
  | some p => rw [chainList_parent t n p h]; exact List.mem_cons_self _ _

theorem chainList_le (t : Tree) (n : Nat) : ∀ m ∈ chainList t n, m ≤ n := by
  induction n using Nat.strong_induction_on with
  | _ n IH =>
    intro m hm
    match h : t.parent n with
    | none =>
      rw [chainList_root t n h] at hm
      cases hm with
      | head => exact Nat.le_refl n
      | tail _ h' => cases h'
    | some p =>
      rw [chainList_parent t n p h] at hm
      cases hm with
      | head => exact Nat.le_refl n
      | tail _ h' =>
        have hp := t.parent_lt n p h
        exact Nat.le_of_lt (Nat.lt_of_le_of_lt (IH p hp m h') hp)

theorem updF_true_mono (f : Nat → Bool) (x m : Nat) (h : f m = true) :
    updF f x true m = true := by
  by_cases hm : m = x <;> simp [updF, hm, h]

theorem updF_true_iff (f : Nat → Bool) (x m : Nat) :
    updF f x true m = true ↔ (m = x ∨ f m = true) := by
  by_cases hm : m = x <;> simp [updF, hm]

theorem updF_false_iff (f : Nat → Bool) (x m : Nat) :
    updF f x false m = true ↔ (m ≠ x ∧ f m = true) := by
  by_cases hm : m = x <;> simp [updF, hm]

/-! ### The ancestor-walk invariant -/

/-- The mark-state invariant established by joint marking and maintained by
the ancestor walk: the `Joint` flags are exactly the members of
`jointObjects`; every joint's counter is a position of that joint in
`jointObjects`, and never a later one; non-joints have no counter; the
visited set is closed upward (up to joints) and only a parentless anchor is
visited; a non-joint node has at most one visited child; every visited node
is a joint or was climbed into from a visited child. -/
structure WalkInv (t : Tree) (a : Nat) (st : BSt) (jo : List Nat) : Prop where
  jointMem : ∀ m, st.joint m = true ↔ m ∈ jo
  counterIdx : ∀ m, m ∈ jo → st.counter m < jo.length ∧ jo.getD (st.counter m) 0 = m
  counterLe : ∀ i, i < jo.length → st.counter (jo.getD i 0) ≤ i
  counterNone : ∀ m, m ∉ jo → st.counter m = NOCOUNTER
  closure : ∀ m, st.visited m = true →
    (t.parent m = none → m = a) ∧
    ∀ p, t.parent m = some p → st.joint p = true ∨ st.visited p = true
  uniqChild : ∀ p m m', st.joint p = false → st.visited m = true → st.visited m' = true →
    t.parent m = some p → t.parent m' = some p → m = m'
  hasChild : ∀ m, st.visited m = true →
    st.joint m = true ∨ ∃ c, st.visited c = true ∧ t.parent c = some m
  joLen : jo.length ≤ NOCOUNTER

/-- How one successful walk branch relates the state before and after. -/
structure WalkStep (st : BSt) (jo : List Nat) (st' : BSt) (jo' : List Nat) : Prop where
  visMono : ∀ m, st.visited m = true → st'.visited m = true
  jointMono : ∀ m, st.joint m = true → st'.joint m = true
  joExt : ∃ ext, jo' = jo ++ ext
  counterOld : ∀ m, m ∈ jo → st'.counter m = st.counter m
  newVisited : ∀ m, m ∈ jo' → m ∈ jo ∨ st'.visited m = true
  ccEq : st'.ccount = st.ccount

theorem WalkStep.rfl (st : BSt) (jo : List Nat) : WalkStep st jo st jo where
  visMono := fun _ h => h
  jointMono := fun _ h => h
  joExt := ⟨[], (List.append_nil jo).symm⟩
  counterOld := fun _ _ => Eq.refl _
  newVisited := fun _ hm => Or.inl hm
  ccEq := Eq.refl _

theorem WalkStep.trans {st st' st'' : BSt} {jo jo' jo'' : List Nat}
    (h1 : WalkStep st jo st' jo') (h2 : WalkStep st' jo' st'' jo'') :
    WalkStep st jo st'' jo'' where
  visMono := fun m hm => h2.visMono m (h1.visMono m hm)
  jointMono := fun m hm => h2.jointMono m (h1.jointMono m hm)
  joExt := by
    obtain ⟨e1, he1⟩ := h1.joExt
    obtain ⟨e2, he2⟩ := h2.joExt
    exact ⟨e1 ++ e2, by rw [he2, he1, List.append_assoc]⟩
  counterOld := fun m hm => by
    obtain ⟨e1, he1⟩ := h1.joExt
    have hm' : m ∈ jo' := he1 ▸ List.mem_append_left _ hm
    rw [h2.counterOld m hm', h1.counterOld m hm]
  newVisited := fun m hm =>
    match h2.newVisited m hm with
    | Or.inr hv => Or.inr hv
    | Or.inl hm' =>
      match h1.newVisited m hm' with
      | Or.inl hj => Or.inl hj
      | Or.inr hv => Or.inr (h2.visMono m hv)
  ccEq := by rw [h2.ccEq, h1.ccEq]

/-- Main specification of one branch of the ancestor walk: under the walk
invariant (with the upward-closure obligation suspended at the entry node,
whose origin is supplied separately), a successful `walkUp` re-establishes the
full invariant, marks the entry node, only adds marks along the entry node's
ancestor chain, and never composes or touches old counters. -/
theorem walkUp_spec (t : Tree) (a : Nat) :
    ∀ n st jo,
    (∀ m, st.joint m = true ↔ m ∈ jo) →
    (∀ m, m ∈ jo → st.counter m < jo.length ∧ jo.getD (st.counter m) 0 = m) →
    (∀ i, i < jo.length → st.counter (jo.getD i 0) ≤ i) →
    (∀ m, m ∉ jo → st.counter m = NOCOUNTER) →
    (∀ m, st.visited m = true →
      (t.parent m = none → m = a) ∧
      ∀ p, t.parent m = some p → st.joint p = true ∨ st.visited p = true ∨ p = n) →
    (∀ p m m', st.joint p = false → st.visited m = true → st.visited m' = true →
      t.parent m = some p → t.parent m' = some p → m = m') →
    (∀ m, st.visited m = true →
      st.joint m = true ∨ ∃ c, st.visited c = true ∧ t.parent c = some m) →
    (st.joint n = true ∨ ∃ c, st.visited c = true ∧ t.parent c = some n) →
    (jo.length ≤ NOCOUNTER) →
    ∀ st' jo', walkUp t a n st jo = (none, st', jo') →
    WalkInv t a st' jo' ∧ WalkStep st jo st' jo' ∧
    st'.visited n = true ∧
    (∀ m, st'.visited m = true → st.visited m = true ∨ m ∈ chainList t n) := by
  intro n
  induction n using Nat.strong_induction_on with
  | _ n IH =>
    intro st jo hJM hCI hCL hCN hClo hUC hHC hOrig hLen st' jo' hrun
    cases hvb : st.visited n with
    | true =>
      rw [walkUp_visited t a n st jo hvb] at hrun
      simp only [Prod.mk.injEq] at hrun
      obtain ⟨-, h2, h3⟩ := hrun
      subst h2; subst h3
      refine ⟨?_, WalkStep.rfl st jo, hvb, fun m hm => Or.inl hm⟩
      exact
        { jointMem := hJM
          counterIdx := hCI
          counterLe := hCL
          counterNone := hCN
          closure := fun m hm =>
            ⟨(hClo m hm).1, fun p hp =>
              match (hClo m hm).2 p hp with
              | Or.inl hj => Or.inl hj
              | Or.inr (Or.inl hv) => Or.inr hv
              | Or.inr (Or.inr hpn) => Or.inr (hpn ▸ hvb)⟩
          uniqChild := hUC
          hasChild := hHC
          joLen := hLen }
    | false =>
      cases hpn : t.parent n with
      | none =>
        rw [walkUp_root t a n st jo hvb hpn] at hrun
        by_cases hna : n = a
        · rw [if_pos hna] at hrun
          simp only [Prod.mk.injEq] at hrun
          obtain ⟨-, h2, h3⟩ := hrun
          subst h2; subst h3
          refine ⟨?_, ?_, updF_same _ _ _, ?_⟩
          · exact
              { jointMem := hJM
                counterIdx := hCI
                counterLe := hCL
                counterNone := hCN
                closure := by
                  intro m hm
                  rcases (updF_true_iff st.visited n m).mp hm with hmn | hmold
                  · subst hmn
                    exact ⟨fun _ => hna, fun p hp => by rw [hpn] at hp; cases hp⟩
                  · refine ⟨(hClo m hmold).1, fun p hp => ?_⟩
                    rcases (hClo m hmold).2 p hp with hj | hv | hpn'
                    · exact Or.inl hj
                    · exact Or.inr (updF_true_mono _ _ _ hv)
                    · exact Or.inr (hpn' ▸ updF_same _ _ _)
                uniqChild := by
                  intro p m m' hjp hm hm' hpm hpm'
                  rcases (updF_true_iff st.visited n m).mp hm with hmn | hmold
                  · subst hmn; rw [hpn] at hpm; cases hpm
                  · rcases (updF_true_iff st.visited n m').mp hm' with hmn' | hmold'
                    · subst hmn'; rw [hpn] at hpm'; cases hpm'
                    · exact hUC p m m' hjp hmold hmold' hpm hpm'
                hasChild := by
                  intro m hm
                  rcases (updF_true_iff st.visited n m).mp hm with hmn | hmold
                  · subst hmn
                    rcases hOrig with hj | ⟨c, hc, hcp⟩
                    · exact Or.inl hj
                    · exact Or.inr ⟨c, updF_true_mono _ _ _ hc, hcp⟩
                  · rcases hHC m hmold with hj | ⟨c, hc, hcp⟩
                    · exact Or.inl hj
                    · exact Or.inr ⟨c, updF_true_mono _ _ _ hc, hcp⟩
                joLen := hLen }
          · exact
              { visMono := fun m hm => updF_true_mono _ _ _ hm
                jointMono := fun _ h => h
                joExt := ⟨[], (List.append_nil jo).symm⟩
                counterOld := fun _ _ => Eq.refl _
                newVisited := fun m hm => Or.inl hm
                ccEq := Eq.refl _ }
          · intro m hm
            rcases (updF_true_iff st.visited n m).mp hm with hmn | hmold
            · exact Or.inr (hmn ▸ chainList_self t n)
            · exact Or.inl hmold
        · rw [if_neg hna] at hrun
          simp only [Prod.mk.injEq] at hrun
          exact absurd hrun.1 (by simp)
      | some p =>
        have hplt := t.parent_lt n p hpn
        have hpnn : p ≠ n := Nat.ne_of_lt hplt
        cases hjb : st.joint p with
        | true =>
          rw [walkUp_stopJoint t a n p st jo hvb hpn hjb] at hrun
          simp only [Prod.mk.injEq] at hrun
          obtain ⟨-, h2, h3⟩ := hrun
          subst h2; subst h3
          refine ⟨?_, ?_, updF_same _ _ _, ?_⟩
          · exact
              { jointMem := hJM
                counterIdx := hCI
                counterLe := hCL
                counterNone := hCN
                closure := by
                  intro m hm
                  rcases (updF_true_iff st.visited n m).mp hm with hmn | hmold
                  · subst hmn
                    refine ⟨fun hc => (by rw [hpn] at hc; cases hc), fun q hq => ?_⟩
                    rw [hpn] at hq
                    cases hq
                    exact Or.inl hjb
                  · refine ⟨(hClo m hmold).1, fun q hq => ?_⟩
                    rcases (hClo m hmold).2 q hq with hj | hv | hqn
                    · exact Or.inl hj
                    · exact Or.inr (updF_true_mono _ _ _ hv)
                    · exact Or.inr (hqn ▸ updF_same _ _ _)
                uniqChild := by
                  intro q m m' hjq hm hm' hqm hqm'
                  rcases (updF_true_iff st.visited n m).mp hm with hmn | hmold
                  · subst hmn
                    rw [hpn] at hqm
                    cases hqm
                    exact absurd hjb (by rw [hjq]; simp)
                  · rcases (updF_true_iff st.visited n m').mp hm' with hmn' | hmold'
                    · subst hmn'
                      rw [hpn] at hqm'
                      cases hqm'
                      exact absurd hjb (by rw [hjq]; simp)
                    · exact hUC q m m' hjq hmold hmold' hqm hqm'
                hasChild := by
                  intro m hm
                  rcases (updF_true_iff st.visited n m).mp hm with hmn | hmold
                  · subst hmn
                    rcases hOrig with hj | ⟨c, hc, hcp⟩
                    · exact Or.inl hj
                    · exact Or.inr ⟨c, updF_true_mono _ _ _ hc, hcp⟩
                  · rcases hHC m hmold with hj | ⟨c, hc, hcp⟩
                    · exact Or.inl hj
                    · exact Or.inr ⟨c, updF_true_mono _ _ _ hc, hcp⟩
                joLen := hLen }
          · exact
              { visMono := fun m hm => updF_true_mono _ _ _ hm
                jointMono := fun _ h => h
                joExt := ⟨[], (List.append_nil jo).symm⟩
                counterOld := fun _ _ => Eq.refl _
                newVisited := fun m hm => Or.inl hm
                ccEq := Eq.refl _ }
          · intro m hm
            rcases (updF_true_iff st.visited n m).mp hm with hmn | hmold
            · exact Or.inr (hmn ▸ chainList_self t n)
            · exact Or.inl hmold
        | false =>
          have hpnotjo : p ∉ jo := fun hmem => by
            rw [(hJM p).mpr hmem] at hjb
            cases hjb
          cases hvpb : st.visited p with
          | true =>
            by_cases hcap : jo.length < NOCOUNTER
            · rw [walkUp_promote t a n p st jo hvb hpn hjb hvpb hcap] at hrun
              simp only [Prod.mk.injEq] at hrun
              obtain ⟨-, h2, h3⟩ := hrun
              subst h2; subst h3
              have hlen' : (jo ++ [p]).length = jo.length + 1 := by
                simp
              refine ⟨?_, ?_, updF_same _ _ _, ?_⟩
              · exact
                  { jointMem := by
                      intro m
                      rw [updF_true_iff]
                      constructor
                      · intro hmor
                        rcases hmor with hmp | hmold
                        · exact List.mem_append_right _ (hmp ▸ List.mem_singleton_self p)
                        · exact List.mem_append_left _ ((hJM m).mp hmold)
                      · intro hmem
                        rcases List.mem_append.mp hmem with hmem' | hmem'
                        · exact Or.inr ((hJM m).mpr hmem')
                        · exact Or.inl (List.mem_singleton.mp hmem')
                    counterIdx := by
                      intro m hmem
                      dsimp only
                      rcases List.mem_append.mp hmem with hmem' | hmem'
                      · have hmp : m ≠ p := fun hc => hpnotjo (hc ▸ hmem')
                        rw [updF_other _ _ _ _ hmp]
                        obtain ⟨hlt, hget⟩ := hCI m hmem'
                        refine ⟨by rw [hlen']; omega, ?_⟩
                        rw [getD_append_left _ _ _ _ hlt]
                        exact hget
                      · have hmp : m = p := List.mem_singleton.mp hmem'
                        subst hmp
                        rw [updF_same]
                        refine ⟨by rw [hlen']; omega, getD_append_last jo m 0⟩
                    counterLe := by
                      intro i hi
                      dsimp only
                      rw [hlen'] at hi
                      by_cases hilt : i < jo.length
                      · rw [getD_append_left _ _ _ _ hilt]
                        have hmem := getD_mem jo i 0 hilt
                        have hmp : jo.getD i 0 ≠ p := fun hc => hpnotjo (hc ▸ hmem)
                        rw [updF_other _ _ _ _ hmp]
                        exact hCL i hilt
                      · have hieq : i = jo.length := by omega
                        subst hieq
                        rw [getD_append_last jo p 0, updF_same]
                    counterNone := by
                      intro m hmem
                      dsimp only
                      have hm1 : m ∉ jo := fun hc => hmem (List.mem_append_left _ hc)
                      have hm2 : m ≠ p := fun hc =>
                        hmem (List.mem_append_right _ (hc ▸ List.mem_singleton_self p))
                      rw [updF_other _ _ _ _ hm2]
                      exact hCN m hm1
                    closure := by
                      intro m hm
                      rcases (updF_true_iff st.visited n m).mp hm with hmn | hmold
                      · subst hmn
                        refine ⟨fun hc => (by rw [hpn] at hc; cases hc), fun q hq => ?_⟩
                        rw [hpn] at hq
                        cases hq
                        exact Or.inl (updF_same _ _ _)
                      · refine ⟨(hClo m hmold).1, fun q hq => ?_⟩
                        rcases (hClo m hmold).2 q hq with hj | hv | hqn
                        · exact Or.inl (updF_true_mono _ _ _ hj)
                        · exact Or.inr (updF_true_mono _ _ _ hv)
                        · exact Or.inr (hqn ▸ updF_same _ _ _)
                    uniqChild := by
                      intro q m m' hjq hm hm' hqm hqm'
                      dsimp only at hjq
                      have hqp : q ≠ p := fun hc => by
                        rw [hc, updF_same] at hjq
                        cases hjq
                      have hjq' : st.joint q = false := by
                        rw [updF_other _ _ _ _ hqp] at hjq
                        exact hjq
                      rcases (updF_true_iff st.visited n m).mp hm with hmn | hmold
                      · subst hmn
                        rw [hpn] at hqm
                        cases hqm
                        exact absurd rfl hqp
                      · rcases (updF_true_iff st.visited n m').mp hm' with hmn' | hmold'
                        · subst hmn'
                          rw [hpn] at hqm'
                          cases hqm'
                          exact absurd rfl hqp
                        · exact hUC q m m' hjq' hmold hmold' hqm hqm'
                    hasChild := by
                      intro m hm
                      rcases (updF_true_iff st.visited n m).mp hm with hmn | hmold
                      · subst hmn
                        rcases hOrig with hj | ⟨c, hc, hcp⟩
                        · exact Or.inl (updF_true_mono _ _ _ hj)
                        · exact Or.inr ⟨c, updF_true_mono _ _ _ hc, hcp⟩
                      · rcases hHC m hmold with hj | ⟨c, hc, hcp⟩
                        · exact Or.inl (updF_true_mono _ _ _ hj)
                        · exact Or.inr ⟨c, updF_true_mono _ _ _ hc, hcp⟩
                    joLen := by rw [hlen']; omega }
              · exact
                  { visMono := fun m hm => updF_true_mono _ _ _ hm
                    jointMono := fun m hm => updF_true_mono _ _ _ hm
                    joExt := ⟨[p], Eq.refl _⟩
                    counterOld := fun m hm =>
                      updF_other _ _ _ _ (fun hc => hpnotjo (hc ▸ hm))
                    newVisited := fun m hm => by
                      rcases List.mem_append.mp hm with hm' | hm'
                      · exact Or.inl hm'
                      · have hmp : m = p := List.mem_singleton.mp hm'
                        subst hmp
                        exact Or.inr (updF_true_mono _ _ _ hvpb)
                    ccEq := Eq.refl _ }
              · intro m hm
                rcases (updF_true_iff st.visited n m).mp hm with hmn | hmold
                · exact Or.inr (hmn ▸ chainList_self t n)
                · exact Or.inl hmold
            · rw [walkUp_promoteFail t a n p st jo hvb hpn hjb hvpb hcap] at hrun
              simp only [Prod.mk.injEq] at hrun
              exact absurd hrun.1 (by simp)
          | false =>
            rw [walkUp_climb t a n p st jo hvb hpn hjb hvpb hpnn] at hrun
            have hbundle :=
              IH p hplt { st with visited := updF st.visited n true } jo
                hJM hCI hCL hCN
                (by
                  intro m hm
                  rcases (updF_true_iff st.visited n m).mp hm with hmn | hmold
                  · subst hmn
                    refine ⟨fun hc => (by rw [hpn] at hc; cases hc), fun q hq => ?_⟩
                    rw [hpn] at hq
                    cases hq
                    exact Or.inr (Or.inr rfl)
                  · refine ⟨(hClo m hmold).1, fun q hq => ?_⟩
                    rcases (hClo m hmold).2 q hq with hj | hv | hqn
                    · exact Or.inl hj
                    · exact Or.inr (Or.inl (updF_true_mono _ _ _ hv))
                    · exact Or.inr (Or.inl (hqn ▸ updF_same _ _ _)))
                (by
                  intro q m m' hjq hm hm' hqm hqm'
                  rcases (updF_true_iff st.visited n m).mp hm with hmn | hmold
                  · rcases (updF_true_iff st.visited n m').mp hm' with hmn' | hmold'
                    · rw [hmn, hmn']
                    · subst hmn
                      rw [hpn] at hqm
                      have hq2 : p = q := Option.some.inj hqm
                      subst hq2
                      rcases (hClo m' hmold').2 p hqm' with hj | hv | hqn
                      · rw [hj] at hjq; cases hjq
                      · rw [hv] at hvpb; cases hvpb
                      · exact absurd hqn hpnn
                  · rcases (updF_true_iff st.visited n m').mp hm' with hmn' | hmold'
                    · subst hmn'
                      rw [hpn] at hqm'
                      have hq2 : p = q := Option.some.inj hqm'
                      subst hq2
                      rcases (hClo m hmold).2 p hqm with hj | hv | hqn
                      · rw [hj] at hjq; cases hjq
                      · rw [hv] at hvpb; cases hvpb
                      · exact absurd hqn hpnn
                    · exact hUC q m m' hjq hmold hmold' hqm hqm')
                (by
                  intro m hm
                  rcases (updF_true_iff st.visited n m).mp hm with hmn | hmold
                  · subst hmn
                    rcases hOrig with hj | ⟨c, hc, hcp⟩
                    · exact Or.inl hj
                    · exact Or.inr ⟨c, updF_true_mono _ _ _ hc, hcp⟩
                  · rcases hHC m hmold with hj | ⟨c, hc, hcp⟩
                    · exact Or.inl hj
                    · exact Or.inr ⟨c, updF_true_mono _ _ _ hc, hcp⟩)
                (Or.inr ⟨n, updF_same _ _ _, hpn⟩)
                hLen st' jo' hrun
            obtain ⟨hInv, hStep, hvp', hchain⟩ := hbundle
            refine ⟨hInv, ?_, ?_, ?_⟩
            · exact
                { visMono := fun m hm =>
                    hStep.visMono m (updF_true_mono _ _ _ hm)
                  jointMono := hStep.jointMono
                  joExt := hStep.joExt
                  counterOld := hStep.counterOld
                  newVisited := hStep.newVisited
                  ccEq := hStep.ccEq }
            · exact hStep.visMono n (updF_same _ _ _)
            · intro m hm
              rcases hchain m hm with hm1 | hm1
              · rcases (updF_true_iff st.visited n m).mp hm1 with hmn | hmold
                · exact Or.inr (hmn ▸ chainList_self t n)
                · exact Or.inl hmold
              · refine Or.inr ?_
                rw [chainList_parent t n p hpn]
                exact List.mem_cons_of_mem _ hm1

/-- The worklist loop of the ancestor walk: starting from the post-marking
state, a successful full walk establishes the invariant with every joint
visited, while the visited set grows only inside the targets' ancestor
chains. -/
theorem walkAll_spec (t : Tree) (a : Nat) :
    ∀ ts st jo,
    WalkInv t a st jo →
    (∀ m, m ∈ jo → st.visited m = true ∨ m ∈ ts) →
    (∀ x, x ∈ ts → x ∈ jo) →
    ∀ st' jo', walkAll t a ts st jo = (none, st', jo') →
    WalkInv t a st' jo' ∧ WalkStep st jo st' jo' ∧
    (∀ m, m ∈ jo' → st'.visited m = true) ∧
    (∀ m, st'.visited m = true → st.visited m = true ∨ ∃ x, x ∈ ts ∧ m ∈ chainList t x) := by
  intro ts
  induction ts with
  | nil =>
    intro st jo hInv hPend hSub st' jo' hrun
    simp only [walkAll, Prod.mk.injEq] at hrun
    obtain ⟨-, rfl, rfl⟩ := hrun
    refine ⟨hInv, WalkStep.rfl st jo, ?_, fun m hm => Or.inl hm⟩
    intro m hm
    rcases hPend m hm with hv | hmem
    · exact hv
    · cases hmem
  | cons x rest ih =>
    intro st jo hInv hPend hSub st' jo' hrun
    rcases hw : walkUp t a x st jo with ⟨e, st1, jo1⟩
    simp only [walkAll, hw] at hrun
    cases e with
    | some err => simp only [Prod.mk.injEq] at hrun; exact absurd hrun.1 (by simp)
    | none =>
      have hx : x ∈ jo := hSub x (List.mem_cons_self _ _)
      have hbundle :=
        walkUp_spec t a x st jo hInv.jointMem hInv.counterIdx hInv.counterLe
          hInv.counterNone
          (fun m hm =>
            ⟨(hInv.closure m hm).1, fun p hp =>
              match (hInv.closure m hm).2 p hp with
              | Or.inl hj => Or.inl hj
              | Or.inr hv => Or.inr (Or.inl hv)⟩)
          hInv.uniqChild hInv.hasChild
          (Or.inl ((hInv.jointMem x).mpr hx))
          hInv.joLen st1 jo1 hw
      obtain ⟨hInv1, hStep1, hvx, hchain1⟩ := hbundle
      have hjoSub : ∀ m, m ∈ jo → m ∈ jo1 := by
        intro m hm
        obtain ⟨ext, hext⟩ := hStep1.joExt
        rw [hext]
        exact List.mem_append_left _ hm
      have hbundle2 :=
        ih st1 jo1 hInv1
          (by
            intro m hm
            rcases hStep1.newVisited m hm with hmold | hv
            · rcases hPend m hmold with hv | hmem
              · exact Or.inl (hStep1.visMono m hv)
              · cases hmem with
                | head => exact Or.inl hvx
                | tail _ h' => exact Or.inr h'
            · exact Or.inl hv)
          (fun y hy => hjoSub y (hSub y (List.mem_cons_of_mem _ hy)))
          st' jo' hrun
      obtain ⟨hInv', hStep2, hAllVis, hchain2⟩ := hbundle2
      refine ⟨hInv', hStep1.trans hStep2, hAllVis, ?_⟩
      intro m hm
      rcases hchain2 m hm with hv1 | ⟨y, hy, hchain⟩
      · rcases hchain1 m hv1 with hv0 | hchain
        · exact Or.inl hv0
        · exact Or.inr ⟨x, List.mem_cons_self _ _, hchain⟩
      · exact Or.inr ⟨y, List.mem_cons_of_mem _ hy, hchain⟩

/-! ### Counting visited nodes -/

/-- Number of visited nodes below the bound `B`. -/
def vCard (B : Nat) (st : BSt) : Nat :=
  ((Finset.range B).filter (fun m => st.visited m = true)).card

/-- Number of visited joints below the bound `B`. -/
def vjCard (B : Nat) (st : BSt) : Nat :=
  ((Finset.range B).filter (fun m => st.visited m = true ∧ st.joint m = true)).card

theorem card_filter_drop (B o : Nat) (q q' : Nat → Prop) [DecidablePred q]
    [DecidablePred q'] (hiff : ∀ m, q' m ↔ (m ≠ o ∧ q m)) (ho : q o) (hoB : o < B) :
    ((Finset.range B).filter q').card + 1 = ((Finset.range B).filter q).card := by
  have hset : (Finset.range B).filter q = insert o ((Finset.range B).filter q') := by
    ext m
    simp only [Finset.mem_filter, Finset.mem_insert, Finset.mem_range]
    constructor
    · intro ⟨hmB, hm⟩
      by_cases hmo : m = o
      · exact Or.inl hmo
      · exact Or.inr ⟨hmB, (hiff m).mpr ⟨hmo, hm⟩⟩
    · intro hm
      rcases hm with hmo | ⟨hmB, hm⟩
      · exact ⟨hmo ▸ hoB, hmo ▸ ho⟩
      · exact ⟨hmB, ((hiff m).mp hm).2⟩
  have hnot : o ∉ (Finset.range B).filter q' := by
    simp only [Finset.mem_filter, Finset.mem_range]
    intro ⟨_, hq'⟩
    exact ((hiff o).mp hq').1 rfl
  rw [hset, Finset.card_insert_of_not_mem hnot]

theorem card_filter_mono (B : Nat) (q q' : Nat → Prop) [DecidablePred q]
    [DecidablePred q'] (h : ∀ m, q' m → q m) :
    ((Finset.range B).filter q').card ≤ ((Finset.range B).filter q).card := by
  apply Finset.card_le_card
  intro m hm
  simp only [Finset.mem_filter] at hm ⊢
  exact ⟨hm.1, h m hm.2⟩

theorem vCard_unvisit (B o : Nat) (st : BSt) (st' : BSt)
    (hv : st'.visited = updF st.visited o false) (ho : st.visited o = true) (hoB : o < B) :
    vCard B st' + 1 = vCard B st := by
  apply card_filter_drop B o _ _ _ ho hoB
  intro m
  rw [hv]
  by_cases hm : m = o <;> simp [updF, hm]

theorem vjCard_unvisit_joint (B o : Nat) (st : BSt) (st' : BSt)
    (hv : st'.visited = updF st.visited o false) (hj : st'.joint = st.joint)
    (ho : st.visited o = true) (hjo : st.joint o = true) (hoB : o < B) :
    vjCard B st' + 1 = vjCard B st := by
  apply card_filter_drop B o _ _ _ ⟨ho, hjo⟩ hoB
  intro m
  rw [hv, hj]
  by_cases hm : m = o <;> simp [updF, hm]

theorem vjCard_mono (B : Nat) (st st' : BSt)
    (hv : ∀ m, st'.visited m = true → st.visited m = true)
    (hj : ∀ m, st'.joint m = st.joint m) :
    vjCard B st' ≤ vjCard B st := by
  apply card_filter_mono
  intro m ⟨h1, h2⟩
  exact ⟨hv m h1, (hj m) ▸ h2⟩

theorem vjCard_pos (B o : Nat) (st : BSt) (ho : st.visited o = true)
    (hjo : st.joint o = true) (hoB : o < B) : 1 ≤ vjCard B st := by
  have : o ∈ (Finset.range B).filter (fun m => st.visited m = true ∧ st.joint m = true) := by
    simp only [Finset.mem_filter, Finset.mem_range]
    exact ⟨hoB, ho, hjo⟩
  exact Finset.card_pos.mpr ⟨o, this⟩

theorem vjCard_le_len (B : Nat) (st : BSt) (jo : List Nat)
    (hJM : ∀ m, st.joint m = true ↔ m ∈ jo) : vjCard B st ≤ jo.length := by
  have hsub : (Finset.range B).filter
      (fun m => st.visited m = true ∧ st.joint m = true) ⊆ jo.toFinset := by
    intro m hm
    simp only [Finset.mem_filter] at hm
    exact List.mem_toFinset.mpr ((hJM m).mp hm.2.2)
  calc vjCard B st ≤ jo.toFinset.card := Finset.card_le_card hsub
    _ ≤ jo.length := jo.toFinset_card_le

/-! ### The value climbed past a node -/

/-- The transformation accumulated above a node: the initial transformation
composed with the absolute transformation of the node's parent (just the
initial transformation for a parentless node). -/
def absUpper {M : Type} (comp : M → M → M) (tr : Nat → M) (t : Tree) (init : M)
    (o : Nat) : M :=
  match t.parent o with
  | none => init
  | some p => comp init (absT comp tr t p)

theorem absT_root {M : Type} (comp : M → M → M) (tr : Nat → M) (t : Tree) (n : Nat)
    (h : t.parent n = none) : absT comp tr t n = tr n := by
  rw [absT]
  split
  · rfl
  · next p heq => rw [h] at heq; cases heq

theorem absT_parent {M : Type} (comp : M → M → M) (tr : Nat → M) (t : Tree) (n p : Nat)
    (h : t.parent n = some p) : absT comp tr t n = comp (absT comp tr t p) (tr n) := by
  rw [absT]
  split
  · next heq => rw [h] at heq; cases heq
  · next p' heq => rw [h] at heq; cases heq; rfl

/-- Composing the accumulated-above value with a node's own transformation
yields the initial transformation composed with the node's absolute
transformation. -/
theorem absUpper_tr {M : Type} (comp : M → M → M) (tr : Nat → M) (t : Tree) (init : M)
    (hassoc : ∀ x y z, comp (comp x y) z = comp x (comp y z)) (o : Nat) :
    comp (absUpper comp tr t init o) (tr o) = comp init (absT comp tr t o) := by
  unfold absUpper
  cases hpo : t.parent o with
  | none => rw [absT_root comp tr t o hpo]
  | some p =>
    rw [absT_parent comp tr t o p hpo, hassoc]

theorem absUpper_root {M : Type} (comp : M → M → M) (tr : Nat → M) (t : Tree) (init : M)
    (o : Nat) (h : t.parent o = none) : absUpper comp tr t init o = init := by
  unfold absUpper
  rw [h]

theorem absUpper_parent {M : Type} (comp : M → M → M) (tr : Nat → M) (t : Tree) (init : M)
    (o p : Nat) (h : t.parent o = some p) :
    absUpper comp tr t init o = comp init (absT comp tr t p) := by
  unfold absUpper
  rw [h]

/-! ### The compute-phase invariant -/

/-- The invariant threaded through `computeJointTransformation` and its climb:
mark/counter facts inherited from the walk, the shrinking visited closure, and
correctness of every already-computed joint entry.  `E` collects the indices
of joints whose climb is suspended in an enclosing frame (their entries are
mid-accumulation), and `xc` is the node whose visited-child obligation is
temporarily discharged by the active climb. -/
structure CInv {M : Type} (comp : M → M → M) (dflt : M) (tr : Nat → M) (t : Tree)
    (a : Nat) (init : M) (jo : List Nat) (B : Nat) (E : List Nat) (xc : Option Nat)
    (st : BSt) (jt : List M) : Prop where
  jointMem : ∀ m, st.joint m = true ↔ m ∈ jo
  counterIdx : ∀ m, m ∈ jo → st.counter m < jo.length ∧ jo.getD (st.counter m) 0 = m
  counterLe : ∀ i, i < jo.length → st.counter (jo.getD i 0) ≤ i
  closure : ∀ m, st.visited m = true →
    (t.parent m = none → m = a) ∧
    ∀ p, t.parent m = some p → st.joint p = true ∨ st.visited p = true
  uniqChild : ∀ p m m', st.joint p = false → st.visited m = true → st.visited m' = true →
    t.parent m = some p → t.parent m' = some p → m = m'
  hasChild : ∀ m, st.visited m = true → some m ≠ xc →
    st.joint m = true ∨ ∃ c, st.visited c = true ∧ t.parent c = some m
  visBound : ∀ m, st.visited m = true → m < B
  jtLen : jt.length = jo.length
  jtDone : ∀ i, i < jo.length → i ∉ E → st.counter (jo.getD i 0) = i →
    st.visited (jo.getD i 0) = false →
    jt.getD i dflt = comp init (absT comp tr t (jo.getD i 0))

/-- What one compute call guarantees about the state transition: the visited
set only shrinks (relative to the reference set `vpre`), joints and counters
are untouched, one composition is counted per cleared node, the array keeps
its length, and suspended entries are untouched. -/
structure CPost {M : Type} (B : Nat) (E : List Nat) (dflt : M)
    (vpre : Nat → Bool) (st : BSt) (jt : List M) (r : BSt × List M) : Prop where
  shrink : ∀ m, r.1.visited m = true → vpre m = true
  jointEq : ∀ m, r.1.joint m = st.joint m
  counterEq : ∀ m, r.1.counter m = st.counter m
  ccSum : r.1.ccount + vCard B r.1 = st.ccount + vCard B st
  jtLenEq : r.2.length = jt.length
  exPres : ∀ i, i ∈ E → r.2.getD i dflt = jt.getD i dflt


theorem updF_false_keep (f : Nat → Bool) (x m : Nat) (h : f m = false) :
    updF f x false m = false := by
  by_cases hm : m = x <;> simp [updF, hm, h]

theorem updF_false_of (f : Nat → Bool) (x m : Nat) (h : updF f x false m = true) :
    f m = true := ((updF_false_iff f x m).mp h).2

theorem updF_false_ne (f : Nat → Bool) (x m : Nat) (h : updF f x false m = true) :
    m ≠ x := ((updF_false_iff f x m).mp h).1

theorem vCard_eq_of_visited (B : Nat) (st st' : BSt) (h : st.visited = st'.visited) :
    vCard B st = vCard B st' := by
  unfold vCard
  rw [h]

theorem CPost.refl {M : Type} (B : Nat) (E : List Nat) (dflt : M) (st : BSt)
    (jt : List M) : CPost B E dflt st.visited st jt (st, jt) where
  shrink := fun _ h => h
  jointEq := fun _ => Eq.refl _
  counterEq := fun _ => Eq.refl _
  ccSum := Eq.refl _
  jtLenEq := Eq.refl _
  exPres := fun _ _ => Eq.refl _

/-- Specification of one `computeJointTransformation` call at a given fuel. -/
def CJSpec {M : Type} (comp : M → M → M) (dflt : M) (tr : Nat → M) (t : Tree)
    (a : Nat) (init : M) (jo : List Nat) (B : Nat) (fuel : Nat) : Prop :=
  ∀ j st jt E,
    CInv comp dflt tr t a init jo B E none st jt →
    j < jo.length →
    j ∉ E →
    (st.counter (jo.getD j 0) = j ∨ st.visited (jo.getD j 0) = false) →
    vjCard B st ≤ fuel →
    (∀ i, i ∈ E → i < jo.length ∧ st.counter (jo.getD i 0) = i ∧
      jo.getD j 0 < jo.getD i 0) →
    CInv comp dflt tr t a init jo B E none
      (computeJointTransformation comp dflt tr t init jo fuel j st jt).1
      (computeJointTransformation comp dflt tr t init jo fuel j st jt).2 ∧
    CPost B E dflt st.visited st jt
      (computeJointTransformation comp dflt tr t init jo fuel j st jt) ∧
    (computeJointTransformation comp dflt tr t init jo fuel j st jt).1.visited
      (jo.getD j 0) = false

/-- Specification of one `cjtClimb` call at a given fuel and climb node. -/
def ClimbSpec {M : Type} (comp : M → M → M) (dflt : M) (tr : Nat → M) (t : Tree)
    (a : Nat) (init : M) (jo : List Nat) (B : Nat) (fuel o : Nat) : Prop :=
  ∀ j st jt E,
    CInv comp dflt tr t a init jo B (j :: E) (some o) st jt →
    st.visited o = true →
    (st.joint o = false → ∀ m, st.visited m = true → t.parent m ≠ some o) →
    (o = jo.getD j 0 ∨ st.joint o = false) →
    o ≤ jo.getD j 0 →
    j < jo.length →
    st.counter (jo.getD j 0) = j →
    (st.visited (jo.getD j 0) = false ∨ jo.getD j 0 = o) →
    comp (absUpper comp tr t init o) (jt.getD j dflt) =
      comp init (absT comp tr t (jo.getD j 0)) →
    vjCard B { st with visited := updF st.visited o false } ≤ fuel →
    (∀ i, i ∈ E → i < jo.length ∧ st.counter (jo.getD i 0) = i ∧
      jo.getD j 0 < jo.getD i 0) →
    j ∉ E →
    CInv comp dflt tr t a init jo B E none
      (cjtClimb comp dflt tr t init jo fuel o j st jt).1
      (cjtClimb comp dflt tr t init jo fuel o j st jt).2 ∧
    CPost B E dflt (updF st.visited o false) st jt
      (cjtClimb comp dflt tr t init jo fuel o j st jt)

/-- Joint correctness of the per-joint computation and its climb: both
re-establish the invariant, clear exactly the nodes they compose over (one
composition counted per cleared node), never touch joints, counters, or
suspended entries, and set every freshly finished canonical entry to the
initial transformation composed with the joint's absolute transformation. -/
theorem compute_spec {M : Type} (comp : M → M → M) (dflt : M) (tr : Nat → M)
    (t : Tree) (a : Nat) (init : M) (jo : List Nat) (B : Nat)
    (hassoc : ∀ x y z, comp (comp x y) z = comp x (comp y z)) :
    ∀ fuel, CJSpec comp dflt tr t a init jo B fuel ∧
      ∀ o, ClimbSpec comp dflt tr t a init jo B fuel o := by
  intro fuel
  induction fuel using Nat.strong_induction_on with
  | _ fuel IHf =>
    have hPfuel : CJSpec comp dflt tr t a init jo B fuel := by
      intro j st jt E hInv hj hjE hcanon hfuel hEx
      have hnode : jo.getD j 0 ∈ jo := getD_mem jo j 0 hj
      have hjoint : st.joint (jo.getD j 0) = true := (hInv.jointMem _).mpr hnode
      cases hv : st.visited (jo.getD j 0) with
      | false =>
        cases fuel with
        | zero =>
          rw [cjt_zero]
          exact ⟨hInv, CPost.refl B E dflt st jt, hv⟩
        | succ f =>
          rw [cjt_done comp dflt tr t init jo j st jt f hv]
          exact ⟨hInv, CPost.refl B E dflt st jt, hv⟩
      | true =>
        have hoB : jo.getD j 0 < B := hInv.visBound _ hv
        have hpos : 1 ≤ vjCard B st := vjCard_pos B _ st hv hjoint hoB
        cases fuel with
        | zero => omega
        | succ f =>
          rw [cjt_enter comp dflt tr t init jo j st jt f hv]
          have hcanonj : st.counter (jo.getD j 0) = j := by
            rcases hcanon with h | h
            · exact h
            · rw [h] at hv; cases hv
          have hjtlen : j < jt.length := by rw [hInv.jtLen]; exact hj
          have hQ := (IHf f (Nat.lt_succ_self f)).2 (jo.getD j 0) j st
            (jt.set j (tr (jo.getD j 0))) E
            { jointMem := hInv.jointMem
              counterIdx := hInv.counterIdx
              counterLe := hInv.counterLe
              closure := hInv.closure
              uniqChild := hInv.uniqChild
              hasChild := fun m hm _ => hInv.hasChild m hm (by simp)
              visBound := hInv.visBound
              jtLen := by rw [List.length_set]; exact hInv.jtLen
              jtDone := by
                intro i hi hiE hci hvi
                have hij : i ≠ j := fun hc => hiE (hc ▸ List.mem_cons_self j E)
                have hiE' : i ∉ E := fun hc => hiE (List.mem_cons_of_mem _ hc)
                rw [getD_set_ne jt j i (tr (jo.getD j 0)) dflt hij]
                exact hInv.jtDone i hi hiE' hci hvi }
            hv
            (fun hf => by rw [hf] at hjoint; cases hjoint)
            (Or.inl rfl)
            (Nat.le_refl _)
            hj hcanonj (Or.inr rfl)
            (by
              rw [getD_set_self jt j (tr (jo.getD j 0)) dflt hjtlen]
              exact absUpper_tr comp tr t init hassoc (jo.getD j 0))
            (by
              have := vjCard_unvisit_joint B (jo.getD j 0) st
                { st with visited := updF st.visited (jo.getD j 0) false }
                rfl rfl hv hjoint hoB
              omega)
            hEx hjE
          obtain ⟨hrInv, hrPost⟩ := hQ
          refine ⟨hrInv, ?_, ?_⟩
          · exact
              { shrink := fun m hm => updF_false_of _ _ _ (hrPost.shrink m hm)
                jointEq := hrPost.jointEq
                counterEq := hrPost.counterEq
                ccSum := hrPost.ccSum
                jtLenEq := by rw [hrPost.jtLenEq, List.length_set]
                exPres := by
                  intro i hiE
                  have hij : i ≠ j := fun hc => hjE (hc ▸ hiE)
                  rw [hrPost.exPres i hiE, getD_set_ne jt j i (tr (jo.getD j 0)) dflt hij] }
          · cases hrv : (cjtClimb comp dflt tr t init jo f (jo.getD j 0) j st
                (jt.set j (tr (jo.getD j 0)))).1.visited (jo.getD j 0) with
            | false => rfl
            | true =>
              have := hrPost.shrink _ hrv
              rw [updF_same] at this
              cases this
    refine ⟨hPfuel, ?_⟩
    intro o
    induction o using Nat.strong_induction_on with
    | _ o IHo =>
      intro j st jt E hInv hvo hNC hoj hlt hj hcanonj hdonej hrel hfuel hEx hjE
      have hoB : o < B := hInv.visBound o hvo
      have hnode : jo.getD j 0 ∈ jo := getD_mem jo j 0 hj
      have hjtlen : j < jt.length := by rw [hInv.jtLen]; exact hj
      have hvC := vCard_unvisit B o st
        { st with visited := updF st.visited o false } rfl hvo hoB
      cases hpo : t.parent o with
      | none =>
        rw [climb_root comp dflt tr t init jo o j st jt fuel hpo]
        constructor
        · exact
            { jointMem := hInv.jointMem
              counterIdx := hInv.counterIdx
              counterLe := hInv.counterLe
              closure := by
                intro m hm
                dsimp only at hm
                have hmo : m ≠ o := updF_false_ne _ _ _ hm
                have hmv : st.visited m = true := updF_false_of _ _ _ hm
                refine ⟨(hInv.closure m hmv).1, fun q hq => ?_⟩
                rcases (hInv.closure m hmv).2 q hq with hjq | hvq
                · exact Or.inl hjq
                · by_cases hqo : q = o
                  · subst hqo
                    cases hjo : st.joint q with
                    | true => exact Or.inl rfl
                    | false => exact absurd hq (hNC hjo m hmv)
                  · refine Or.inr ?_
                    dsimp only
                    rw [updF_other _ _ _ _ hqo]
                    exact hvq
              uniqChild := by
                intro q m m1 hjq hm hm1 hqm hqm1
                dsimp only at hm hm1 hjq
                exact hInv.uniqChild q m m1 hjq (updF_false_of _ _ _ hm)
                  (updF_false_of _ _ _ hm1) hqm hqm1
              hasChild := by
                intro m hm _
                dsimp only at hm
                have hmo : m ≠ o := updF_false_ne _ _ _ hm
                have hmv : st.visited m = true := updF_false_of _ _ _ hm
                rcases hInv.hasChild m hmv
                  (fun hc => hmo (Option.some.inj hc)) with hjm | ⟨c, hc, hcp⟩
                · exact Or.inl hjm
                · have hco : c ≠ o := fun hc2 => by
                    rw [hc2, hpo] at hcp
                    cases hcp
                  refine Or.inr ⟨c, ?_, hcp⟩
                  dsimp only
                  rw [updF_other _ _ _ _ hco]
                  exact hc
              visBound := by
                intro m hm
                dsimp only at hm
                exact hInv.visBound m (updF_false_of _ _ _ hm)
              jtLen := by rw [List.length_set]; exact hInv.jtLen
              jtDone := by
                intro i hi hiE hci hvi
                dsimp only at hci hvi
                by_cases hij : i = j
                · subst hij
                  rw [getD_set_self jt i (comp init (jt.getD i dflt)) dflt hjtlen]
                  rw [absUpper_root comp tr t init o hpo] at hrel
                  exact hrel
                · rw [getD_set_ne jt j i (comp init (jt.getD j dflt)) dflt hij]
                  cases hvpre : st.visited (jo.getD i 0) with
                  | false =>
                    refine hInv.jtDone i hi ?_ hci hvpre
                    intro hc
                    cases hc with
                    | head => exact hij rfl
                    | tail _ h2 => exact hiE h2
                  | true =>
                    exfalso
                    have hio : jo.getD i 0 = o := by
                      by_cases hx : jo.getD i 0 = o
                      · exact hx
                      · rw [updF_other _ _ _ _ hx, hvpre] at hvi
                        cases hvi
                    have hjo : st.joint o = true := by
                      rw [← hio]
                      exact (hInv.jointMem _).mpr (getD_mem jo i 0 hi)
                    have hoeq : o = jo.getD j 0 := by
                      rcases hoj with h | h
                      · exact h
                      · rw [h] at hjo; cases hjo
                    rw [hio, hoeq, hcanonj] at hci
                    exact hij hci.symm }
        · exact
            { shrink := fun m hm => hm
              jointEq := fun _ => Eq.refl _
              counterEq := fun _ => Eq.refl _
              ccSum := by
                dsimp only
                rw [vCard_eq_of_visited B
                  { st with visited := updF st.visited o false, ccount := st.ccount + 1 }
                  { st with visited := updF st.visited o false } rfl]
                omega
              jtLenEq := List.length_set jt j _
              exPres := by
                intro i hiE
                have hij : i ≠ j := fun hc => hjE (hc ▸ hiE)
                exact getD_set_ne jt j i (comp init (jt.getD j dflt)) dflt hij }
      | some p =>
        have hplt : p < o := t.parent_lt o p hpo
        have hvp : st.joint p = true ∨ st.visited p = true :=
          (hInv.closure o hvo).2 p hpo
        cases hjp : st.joint p with
        | true =>
          rw [climb_joint comp dflt tr t init jo o j p st jt fuel hpo hjp]
          dsimp only
          have hpjo : p ∈ jo := (hInv.jointMem p).mp hjp
          obtain ⟨hcplt, hcpnode⟩ := hInv.counterIdx p hpjo
          have hcpj : st.counter p ≠ j := by
            intro hc
            have : jo.getD j 0 = p := by rw [← hc]; exact hcpnode
            omega
          have hcpE : st.counter p ∉ E := by
            intro hc
            have h3 := (hEx (st.counter p) hc).2.2
            rw [hcpnode] at h3
            omega
          have hrec := hPfuel (st.counter p)
            { st with visited := updF st.visited o false } jt (j :: E)
            { jointMem := hInv.jointMem
              counterIdx := hInv.counterIdx
              counterLe := hInv.counterLe
              closure := by
                intro m hm
                dsimp only at hm
                have hmo : m ≠ o := updF_false_ne _ _ _ hm
                have hmv : st.visited m = true := updF_false_of _ _ _ hm
                refine ⟨(hInv.closure m hmv).1, fun q hq => ?_⟩
                rcases (hInv.closure m hmv).2 q hq with hjq | hvq
                · exact Or.inl hjq
                · by_cases hqo : q = o
                  · subst hqo
                    cases hjo : st.joint q with
                    | true => exact Or.inl rfl
                    | false => exact absurd hq (hNC hjo m hmv)
                  · refine Or.inr ?_
                    dsimp only
                    rw [updF_other _ _ _ _ hqo]
                    exact hvq
              uniqChild := by
                intro q m m1 hjq hm hm1 hqm hqm1
                dsimp only at hm hm1 hjq
                exact hInv.uniqChild q m m1 hjq (updF_false_of _ _ _ hm)
                  (updF_false_of _ _ _ hm1) hqm hqm1
              hasChild := by
                intro m hm _
                dsimp only at hm
                have hmo : m ≠ o := updF_false_ne _ _ _ hm
                have hmv : st.visited m = true := updF_false_of _ _ _ hm
                rcases hInv.hasChild m hmv
                  (fun hc => hmo (Option.some.inj hc)) with hjm | ⟨c, hc, hcp⟩
                · exact Or.inl hjm
                · by_cases hco : c = o
                  · subst hco
                    rw [hpo] at hcp
                    have : p = m := Option.some.inj hcp
                    subst this
                    exact Or.inl hjp
                  · refine Or.inr ⟨c, ?_, hcp⟩
                    dsimp only
                    rw [updF_other _ _ _ _ hco]
                    exact hc
              visBound := by
                intro m hm
                dsimp only at hm
                exact hInv.visBound m (updF_false_of _ _ _ hm)
              jtLen := hInv.jtLen
              jtDone := by
                intro i hi hiE hci hvi
                dsimp only at hci hvi
                have hij : i ≠ j := fun hc => hiE (hc ▸ List.mem_cons_self j E)
                cases hvpre : st.visited (jo.getD i 0) with
                | false => exact hInv.jtDone i hi hiE hci hvpre
                | true =>
                  exfalso
                  have hio : jo.getD i 0 = o := by
                    by_cases hx : jo.getD i 0 = o
                    · exact hx
                    · rw [updF_other _ _ _ _ hx, hvpre] at hvi
                      cases hvi
                  have hjo : st.joint o = true := by
                    rw [← hio]
                    exact (hInv.jointMem _).mpr (getD_mem jo i 0 hi)
                  have hoeq : o = jo.getD j 0 := by
                    rcases hoj with h | h
                    · exact h
                    · rw [h] at hjo; cases hjo
                  rw [hio, hoeq, hcanonj] at hci
                  exact hij hci.symm }
            hcplt
            (by
              intro hc
              cases hc with
              | head => exact hcpj rfl
              | tail _ h2 => exact hcpE h2)
            (Or.inl (by rw [hcpnode]))
            hfuel
            (by
              intro i hiE
              cases hiE with
              | head =>
                refine ⟨hj, hcanonj, ?_⟩
                rw [hcpnode]
                omega
              | tail _ h2 =>
                obtain ⟨h4, h5, h6⟩ := hEx i h2
                refine ⟨h4, h5, ?_⟩
                rw [hcpnode]
                omega)
          obtain ⟨hrInv, hrPost, hrdone⟩ := hrec
          have hcEq : (computeJointTransformation comp dflt tr t init jo fuel
              (st.counter p) { st with visited := updF st.visited o false }
              jt).1.counter (jo.getD (st.counter p) 0) = st.counter p := by
            rw [hrPost.counterEq, hcpnode]
          have hval := hrInv.jtDone (st.counter p) hcplt
            (by
              intro hc
              cases hc with
              | head => exact hcpj rfl
              | tail _ h2 => exact hcpE h2)
            hcEq hrdone
          rw [hcpnode] at hval
          have hjpres := hrPost.exPres j (List.mem_cons_self j E)
          constructor
          · exact
              { jointMem := fun m => by
                  dsimp only
                  rw [hrPost.jointEq m]
                  exact hInv.jointMem m
                counterIdx := fun m hm => by
                  dsimp only
                  rw [hrPost.counterEq m]
                  exact hInv.counterIdx m hm
                counterLe := fun i hi => by
                  dsimp only
                  rw [hrPost.counterEq _]
                  exact hInv.counterLe i hi
                closure := by
                  intro m hm
                  dsimp only at hm
                  exact hrInv.closure m hm
                uniqChild := by
                  intro q m m1 hjq hm hm1 hqm hqm1
                  dsimp only at hjq hm hm1
                  exact hrInv.uniqChild q m m1 hjq hm hm1 hqm hqm1
                hasChild := by
                  intro m hm _
                  dsimp only at hm
                  exact hrInv.hasChild m hm (by simp)
                visBound := by
                  intro m hm
                  dsimp only at hm
                  exact hrInv.visBound m hm
                jtLen := by
                  rw [List.length_set]
                  exact hrInv.jtLen
                jtDone := by
                  intro i hi hiE hci hvi
                  dsimp only at hci hvi
                  have hjlen2 : j < (computeJointTransformation comp dflt tr t init
                      jo fuel (st.counter p)
                      { st with visited := updF st.visited o false } jt).2.length := by
                    rw [hrInv.jtLen]
                    exact hj
                  by_cases hij : i = j
                  · subst hij
                    rw [getD_set_self _ i _ dflt hjlen2, hval, hjpres]
                    rw [← absUpper_parent comp tr t init o p hpo]
                    exact hrel
                  · rw [getD_set_ne _ j i _ dflt hij]
                    refine hrInv.jtDone i hi ?_ (by rw [hrPost.counterEq] at hci ⊢; exact hci) hvi
                    intro hc
                    cases hc with
                    | head => exact hij rfl
                    | tail _ h2 => exact hiE h2 }
          · exact
              { shrink := fun m hm => hrPost.shrink m hm
                jointEq := fun m => hrPost.jointEq m
                counterEq := fun m => hrPost.counterEq m
                ccSum := by
                  dsimp only
                  have h1 := hrPost.ccSum
                  dsimp only at h1
                  have h2 : vCard B { (computeJointTransformation comp dflt tr t init
                      jo fuel (st.counter p)
                      { st with visited := updF st.visited o false } jt).1 with
                      ccount := (computeJointTransformation comp dflt tr t init
                        jo fuel (st.counter p)
                        { st with visited := updF st.visited o false } jt).1.ccount + 1 } =
                      vCard B (computeJointTransformation comp dflt tr t init
                        jo fuel (st.counter p)
                        { st with visited := updF st.visited o false } jt).1 := by
                    unfold vCard
                    rfl
                  rw [h2]
                  omega
                jtLenEq := by
                  rw [List.length_set]
                  exact hrInv.jtLen.trans hInv.jtLen.symm
                exPres := by
                  intro i hiE
                  have hij : i ≠ j := fun hc => hjE (hc ▸ hiE)
                  rw [getD_set_ne _ j i _ dflt hij]
                  exact hrPost.exPres i (List.mem_cons_of_mem _ hiE) }
        | false =>
          have hvpp : st.visited p = true := by
            rcases hvp with h | h
            · rw [h] at hjp; cases hjp
            · exact h
          rw [climb_step comp dflt tr t init jo o j p st jt fuel hpo hjp]
          have hrec := IHo p hplt j
            { st with visited := updF st.visited o false, ccount := st.ccount + 1 }
            (jt.set j (comp (tr p) (jt.getD j dflt))) E
            { jointMem := hInv.jointMem
              counterIdx := hInv.counterIdx
              counterLe := hInv.counterLe
              closure := by
                intro m hm
                dsimp only at hm
                have hmo : m ≠ o := updF_false_ne _ _ _ hm
                have hmv : st.visited m = true := updF_false_of _ _ _ hm
                refine ⟨(hInv.closure m hmv).1, fun q hq => ?_⟩
                rcases (hInv.closure m hmv).2 q hq with hjq | hvq
                · exact Or.inl hjq
                · by_cases hqo : q = o
                  · subst hqo
                    cases hjo : st.joint q with
                    | true => exact Or.inl rfl
                    | false => exact absurd hq (hNC hjo m hmv)
                  · refine Or.inr ?_
                    dsimp only
                    rw [updF_other _ _ _ _ hqo]
                    exact hvq
              uniqChild := by
                intro q m m1 hjq hm hm1 hqm hqm1
                dsimp only at hm hm1 hjq
                exact hInv.uniqChild q m m1 hjq (updF_false_of _ _ _ hm)
                  (updF_false_of _ _ _ hm1) hqm hqm1
              hasChild := by
                intro m hm hmp
                dsimp only at hm
                have hmo : m ≠ o := updF_false_ne _ _ _ hm
                have hmv : st.visited m = true := updF_false_of _ _ _ hm
                have hmp2 : m ≠ p := fun hc => hmp (by rw [hc])
                rcases hInv.hasChild m hmv
                  (fun hc => hmo (Option.some.inj hc)) with hjm | ⟨c, hc, hcp⟩
                · exact Or.inl hjm
                · by_cases hco : c = o
                  · exfalso
                    subst hco
                    rw [hpo] at hcp
                    exact hmp2 (Option.some.inj hcp).symm
                  · refine Or.inr ⟨c, ?_, hcp⟩
                    dsimp only
                    rw [updF_other _ _ _ _ hco]
                    exact hc
              visBound := by
                intro m hm
                dsimp only at hm
                exact hInv.visBound m (updF_false_of _ _ _ hm)
              jtLen := by rw [List.length_set]; exact hInv.jtLen
              jtDone := by
                intro i hi hiE hci hvi
                dsimp only at hci hvi
                have hij : i ≠ j := fun hc => hiE (hc ▸ List.mem_cons_self j E)
                rw [getD_set_ne jt j i _ dflt hij]
                cases hvpre : st.visited (jo.getD i 0) with
                | false => exact hInv.jtDone i hi hiE hci hvpre
                | true =>
                  exfalso
                  have hio : jo.getD i 0 = o := by
                    by_cases hx : jo.getD i 0 = o
                    · exact hx
                    · rw [updF_other _ _ _ _ hx, hvpre] at hvi
                      cases hvi
                  have hjo : st.joint o = true := by
                    rw [← hio]
                    exact (hInv.jointMem _).mpr (getD_mem jo i 0 hi)
                  have hoeq : o = jo.getD j 0 := by
                    rcases hoj with h | h
                    · exact h
                    · rw [h] at hjo; cases hjo
                  rw [hio, hoeq, hcanonj] at hci
                  exact hij hci.symm }
            (by
              dsimp only
              rw [updF_other _ _ _ _ (Nat.ne_of_lt hplt)]
              exact hvpp)
            (by
              intro hjp2 m hm hpm
              dsimp only at hm hjp2
              have hmo : m ≠ o := updF_false_ne _ _ _ hm
              have hmv : st.visited m = true := updF_false_of _ _ _ hm
              exact hmo (hInv.uniqChild p m o hjp hmv hvo hpm hpo))
            (Or.inr hjp)
            (Nat.le_trans (Nat.le_of_lt hplt) hlt)
            hj hcanonj
            (by
              rcases hdonej with h | h
              · exact Or.inl (updF_false_keep _ _ _ h)
              · refine Or.inl ?_
                show updF st.visited o false (jo.getD j 0) = false
                rw [h]
                exact updF_same _ _ _)
            (by
              rw [getD_set_self jt j _ dflt hjtlen]
              rw [← hassoc, absUpper_tr comp tr t init hassoc p,
                ← absUpper_parent comp tr t init o p hpo]
              exact hrel)
            (by
              refine Nat.le_trans (vjCard_mono B _ _ ?_ ?_) hfuel
              · intro m hm
                dsimp only at hm ⊢
                exact updF_false_of _ _ _ hm
              · intro m
                rfl)
            hEx hjE
          obtain ⟨hrInv, hrPost⟩ := hrec
          refine ⟨hrInv, ?_⟩
          refine
            { shrink := ?_
              jointEq := fun m => hrPost.jointEq m
              counterEq := fun m => hrPost.counterEq m
              ccSum := ?_
              jtLenEq := by rw [hrPost.jtLenEq, List.length_set]
              exPres := ?_ }
          · intro m hm
            have h2 := hrPost.shrink m hm
            dsimp only at h2
            exact updF_false_of _ _ _ h2
          · have h1 := hrPost.ccSum
            dsimp only at h1
            rw [vCard_eq_of_visited B
              { st with visited := updF st.visited o false, ccount := st.ccount + 1 }
              { st with visited := updF st.visited o false } rfl] at h1
            omega
          · intro i hiE
            have hij : i ≠ j := fun hc => hjE (hc ▸ hiE)
            rw [hrPost.exPres i hiE, getD_set_ne jt j i _ dflt hij]


/-- The driver loop over all joints: starting from the post-walk state it
re-establishes the invariant with every joint's entry computed and every
visited mark at a joint cleared.  (`d` is an explicit bound on the remaining
iterations, instantiated with `jo.length`.) -/
theorem computeAll_spec {M : Type} (comp : M → M → M) (dflt : M) (tr : Nat → M)
    (t : Tree) (a : Nat) (init : M) (jo : List Nat) (B : Nat)
    (hassoc : ∀ x y z, comp (comp x y) z = comp x (comp y z)) :
    ∀ d i st jt, jo.length - i ≤ d →
    CInv comp dflt tr t a init jo B [] none st jt →
    (∀ k, k < i → st.visited (jo.getD k 0) = false) →
    CInv comp dflt tr t a init jo B [] none
      (computeAll comp dflt tr t init jo i st jt).1
      (computeAll comp dflt tr t init jo i st jt).2 ∧
    CPost B [] dflt st.visited st jt (computeAll comp dflt tr t init jo i st jt) ∧
    (∀ k, k < jo.length →
      (computeAll comp dflt tr t init jo i st jt).1.visited (jo.getD k 0) = false) := by
  intro d
  induction d with
  | zero =>
    intro i st jt hd hInv hbelow
    have hstop : ¬ i < jo.length := by omega
    rw [computeAll_stop comp dflt tr t init jo i st jt hstop]
    refine ⟨hInv, CPost.refl B [] dflt st jt, ?_⟩
    intro k hk
    exact hbelow k (by omega)
  | succ d IH =>
    intro i st jt hd hInv hbelow
    by_cases hi : i < jo.length
    · rw [computeAll_step comp dflt tr t init jo i st jt hi]
      dsimp only
      have hnode : jo.getD i 0 ∈ jo := getD_mem jo i 0 hi
      have hcanon : st.counter (jo.getD i 0) = i ∨ st.visited (jo.getD i 0) = false := by
        have hle := hInv.counterLe i hi
        by_cases hci : st.counter (jo.getD i 0) = i
        · exact Or.inl hci
        · have hlt : st.counter (jo.getD i 0) < i := by omega
          obtain ⟨h1, h2⟩ := hInv.counterIdx (jo.getD i 0) hnode
          have h3 := hbelow (st.counter (jo.getD i 0)) hlt
          rw [h2] at h3
          exact Or.inr h3
      have hcj := (compute_spec comp dflt tr t a init jo B hassoc (jo.length + 1)).1
        i st jt [] hInv hi (by simp) hcanon
        (Nat.le_trans (vjCard_le_len B st jo hInv.jointMem) (Nat.le_succ _))
        (by intro x hx; cases hx)
      obtain ⟨hInv1, hPost1, hidone⟩ := hcj
      have hrec := IH (i + 1)
        (computeJointTransformation comp dflt tr t init jo (jo.length + 1) i st jt).1
        (computeJointTransformation comp dflt tr t init jo (jo.length + 1) i st jt).2
        (by omega) hInv1
        (by
          intro k hk
          by_cases hki : k = i
          · subst hki; exact hidone
          · have hki2 : k < i := by omega
            cases hv2 : (computeJointTransformation comp dflt tr t init jo
                (jo.length + 1) i st jt).1.visited (jo.getD k 0) with
            | false => rfl
            | true =>
              have h4 := hPost1.shrink _ hv2
              rw [hbelow k hki2] at h4
              cases h4)
      obtain ⟨hInv2, hPost2, hdone2⟩ := hrec
      refine ⟨hInv2, ?_, hdone2⟩
      exact
        { shrink := fun m hm => hPost1.shrink m (hPost2.shrink m hm)
          jointEq := fun m => (hPost2.jointEq m).trans (hPost1.jointEq m)
          counterEq := fun m => (hPost2.counterEq m).trans (hPost1.counterEq m)
          ccSum := by
            have h1 := hPost1.ccSum
            have h2 := hPost2.ccSum
            omega
          jtLenEq := (hPost2.jtLenEq).trans hPost1.jtLenEq
          exPres := fun x hx => absurd hx (List.not_mem_nil x) }
    · rw [computeAll_stop comp dflt tr t init jo i st jt hi]
      refine ⟨hInv, CPost.refl B [] dflt st jt, ?_⟩
      intro k hk
      exact hbelow k (by omega)

/-- The duplicate-resolution loop: every position below the original count
receives the entry computed at its object's counter, canonical entries are
never overwritten, and positions below the loop index are left alone. -/
theorem resolveDup_spec {M : Type} (dflt : M) (jo : List Nat) (st : BSt) (cnt : Nat)
    (jtRef : List M) (hcnt : cnt ≤ jo.length)
    (hCI : ∀ m, m ∈ jo → st.counter m < jo.length ∧ jo.getD (st.counter m) 0 = m) :
    ∀ d i jt, cnt - i ≤ d →
    jt.length = jo.length →
    (∀ m, m < jo.length → st.counter (jo.getD m 0) = m →
      jt.getD m dflt = jtRef.getD m dflt) →
    (∀ m, i ≤ m → jt.getD m dflt = jtRef.getD m dflt) →
    (resolveDup dflt jo st i cnt jt).length = jt.length ∧
    (∀ k, i ≤ k → k < cnt →
      (resolveDup dflt jo st i cnt jt).getD k dflt =
        jtRef.getD (st.counter (jo.getD k 0)) dflt) ∧
    (∀ m, m < i → (resolveDup dflt jo st i cnt jt).getD m dflt = jt.getD m dflt) := by
  intro d
  induction d with
  | zero =>
    intro i jt hd hlen hH1 hH2
    have hstop : ¬ i < cnt := by omega
    rw [resolveDup_stop dflt jo st i cnt jt hstop]
    exact ⟨rfl, fun k hk1 hk2 => by omega, fun m hm => rfl⟩
  | succ d IH =>
    intro i jt hd hlen hH1 hH2
    by_cases hi : i < cnt
    · rw [resolveDup_step dflt jo st i cnt jt hi]
      have hilen : i < jo.length := by omega
      have hnode : jo.getD i 0 ∈ jo := getD_mem jo i 0 hilen
      obtain ⟨hflt, hfnode⟩ := hCI (jo.getD i 0) hnode
      have hfcanon : st.counter (jo.getD (st.counter (jo.getD i 0)) 0) =
          st.counter (jo.getD i 0) := by
        rw [hfnode]
      have hjtlen : i < jt.length := by omega
      by_cases hci : st.counter (jo.getD i 0) ≠ i
      · rw [if_pos hci]
        have hval : (jt.set i (jt.getD (st.counter (jo.getD i 0)) dflt)).getD i dflt =
            jtRef.getD (st.counter (jo.getD i 0)) dflt := by
          rw [getD_set_self jt i _ dflt hjtlen]
          exact hH1 (st.counter (jo.getD i 0)) hflt hfcanon
        have hrec := IH (i + 1) (jt.set i (jt.getD (st.counter (jo.getD i 0)) dflt))
          (by omega)
          (by rw [List.length_set]; exact hlen)
          (by
            intro m hm hcm
            have hmi : m ≠ i := by
              intro hc
              subst hc
              exact hci hcm
            rw [getD_set_ne jt i m _ dflt hmi]
            exact hH1 m hm hcm)
          (by
            intro m hm
            have hmi : m ≠ i := by omega
            rw [getD_set_ne jt i m _ dflt hmi]
            exact hH2 m (by omega))
        obtain ⟨hr1, hr2, hr3⟩ := hrec
        refine ⟨by rw [hr1, List.length_set], ?_, ?_⟩
        · intro k hk1 hk2
          by_cases hki : k = i
          · subst hki
            rw [hr3 k (by omega)]
            exact hval
          · exact hr2 k (by omega) hk2
        · intro m hm
          rw [hr3 m (by omega), getD_set_ne jt i m _ dflt (by omega)]
      · rw [if_neg hci]
        have hcieq : st.counter (jo.getD i 0) = i := by omega
        have hrec := IH (i + 1) jt (by omega) hlen hH1
          (fun m hm => hH2 m (by omega))
        obtain ⟨hr1, hr2, hr3⟩ := hrec
        refine ⟨hr1, ?_, ?_⟩
        · intro k hk1 hk2
          by_cases hki : k = i
          · subst hki
            rw [hr3 k (by omega), hcieq]
            exact hH2 k (by omega)
          · exact hr2 k (by omega) hk2
        · intro m hm
          exact hr3 m (by omega)
    · rw [resolveDup_stop dflt jo st i cnt jt hi]
      exact ⟨rfl, fun k hk1 hk2 => by omega, fun m hm => rfl⟩

/-- The cleanup loop clears the joint flag and counter of every
`jointObjects` member and touches nothing else. -/
theorem cleanupMarks_spec (jo : List Nat) :
    ∀ st : BSt,
    (cleanupMarks jo st).visited = st.visited ∧
    (cleanupMarks jo st).ccount = st.ccount ∧
    (∀ m, m ∈ jo → (cleanupMarks jo st).joint m = false ∧
      (cleanupMarks jo st).counter m = NOCOUNTER) ∧
    (∀ m, m ∉ jo → (cleanupMarks jo st).joint m = st.joint m ∧
      (cleanupMarks jo st).counter m = st.counter m) := by
  induction jo with
  | nil =>
    intro st
    exact ⟨rfl, rfl, fun m hm => absurd hm (List.not_mem_nil m), fun m _ => ⟨rfl, rfl⟩⟩
  | cons x rest ih =>
    intro st
    have hstep : cleanupMarks (x :: rest) st =
        cleanupMarks rest
          { st with joint := updF st.joint x false, counter := updF st.counter x NOCOUNTER } := by
      rfl
    rw [hstep]
    obtain ⟨h1, h2, h3, h4⟩ := ih
      { st with joint := updF st.joint x false, counter := updF st.counter x NOCOUNTER }
    refine ⟨h1, h2, ?_, ?_⟩
    · intro m hm
      by_cases hmr : m ∈ rest
      · exact h3 m hmr
      · have hmx : m = x := by
          cases hm with
          | head => rfl
          | tail _ hmem => exact absurd hmem hmr
        subst hmx
        obtain ⟨h5, h6⟩ := h4 m hmr
        rw [h5, h6]
        dsimp only
        exact ⟨updF_same _ _ _, updF_same _ _ _⟩
    · intro m hm
      have hmx : m ≠ x := fun hc => hm (hc ▸ List.mem_cons_self x rest)
      have hmr : m ∉ rest := fun hc => hm (List.mem_cons_of_mem _ hc)
      obtain ⟨h5, h6⟩ := h4 m hmr
      rw [h5, h6]
      dsimp only
      exact ⟨updF_other _ _ _ _ hmx, updF_other _ _ _ _ hmx⟩

/-- After every joint is computed, no visited mark remains anywhere: a
non-joint visited node would need an infinite ascending chain of visited
children inside the bound. -/
theorem visited_empty_post {M : Type} (comp : M → M → M) (dflt : M) (tr : Nat → M)
    (t : Tree) (a : Nat) (init : M) (jo : List Nat) (B : Nat) (st : BSt)
    (jt : List M) (hInv : CInv comp dflt tr t a init jo B [] none st jt)
    (hdone : ∀ m, m ∈ jo → st.visited m = false) :
    ∀ n, st.visited n = false := by
  have hk : ∀ k n, B - n ≤ k → st.visited n = false := by
    intro k
    induction k with
    | zero =>
      intro n hn
      cases hv : st.visited n with
      | false => rfl
      | true =>
        have := hInv.visBound n hv
        omega
    | succ k ih =>
      intro n hn
      cases hv : st.visited n with
      | false => rfl
      | true =>
        exfalso
        rcases hInv.hasChild n hv (by simp) with hj | ⟨c, hc, hcp⟩
        · rw [hdone n ((hInv.jointMem n).mp hj)] at hv
          cases hv
        · have hcn : n < c := t.parent_lt c n hcp
          have hcB : c < B := hInv.visBound c hc
          have := ih c (by omega)
          rw [this] at hc
          cases hc
  intro n
  exact hk B n (by omega)


/-- The invariant right after joint marking on a clean state. -/
theorem markJoints_inv (t : Tree) (a : Nat) (targets : List Nat)
    (hlen : targets.length ≤ NOCOUNTER) :
    WalkInv t a (markJoints cleanSt targets 0) targets := by
  have hvis := markJoints_visited targets 0 cleanSt
  have hcnt : ∀ n, (markJoints cleanSt targets 0).counter n =
      if n ∈ targets then firstIdx n targets else NOCOUNTER := by
    intro n
    rw [markJoints_counter targets 0 cleanSt n (by simpa using hlen)]
    by_cases hmem : n ∈ targets
    · simp [cleanSt, hmem]
    · simp [cleanSt, hmem]
  have hjnt : ∀ n, (markJoints cleanSt targets 0).joint n = decide (n ∈ targets) := by
    intro n
    rw [markJoints_joint targets 0 cleanSt n]
    simp [cleanSt]
  exact
    { jointMem := by intro m; rw [hjnt]; simp
      counterIdx := by
        intro m hm
        rw [hcnt, if_pos hm]
        exact ⟨firstIdx_lt m targets hm, getD_firstIdx m targets hm⟩
      counterLe := by
        intro i hi
        have hmem := getD_mem targets i 0 hi
        rw [hcnt, if_pos hmem]
        exact firstIdx_le _ targets i hi rfl
      counterNone := by intro m hm; rw [hcnt, if_neg hm]
      closure := by
        intro m hm
        rw [hvis] at hm
        simp [cleanSt] at hm
      uniqChild := by
        intro p m m1 _ hm _ _ _
        rw [hvis] at hm
        simp [cleanSt] at hm
      hasChild := by
        intro m hm
        rw [hvis] at hm
        simp [cleanSt] at hm
      joLen := hlen }

/-- Every node on a visited node's ancestor chain is visited once the walk
has finished (joints included). -/
theorem chain_visited (t : Tree) (a : Nat) (st : BSt) (jo : List Nat)
    (hInv : WalkInv t a st jo) (hAll : ∀ m, m ∈ jo → st.visited m = true) :
    ∀ x, st.visited x = true → ∀ m, m ∈ chainList t x → st.visited m = true := by
  intro x
  induction x using Nat.strong_induction_on with
  | _ x IH =>
    intro hx m hm
    cases hpx : t.parent x with
    | none =>
      rw [chainList_root t x hpx] at hm
      cases hm with
      | head => exact hx
      | tail _ h2 => cases h2
    | some p =>
      rw [chainList_parent t x p hpx] at hm
      cases hm with
      | head => exact hx
      | tail _ h2 =>
        have hvp : st.visited p = true := by
          rcases (hInv.closure x hx).2 p hpx with hj | hv
          · exact hAll p ((hInv.jointMem p).mp hj)
          · exact hv
        exact IH p (t.parent_lt x p hpx) hvp m h2

theorem mem_getD_idx (l : List Nat) (m : Nat) (h : m ∈ l) :
    ∃ k, k < l.length ∧ l.getD k 0 = m := by
  induction l with
  | nil => cases h
  | cons x rest ih =>
    cases h with
    | head => exact ⟨0, by simp, by simp [List.getD_cons_zero]⟩
    | tail _ h2 =>
      obtain ⟨k, hk1, hk2⟩ := ih h2
      refine ⟨k + 1, ?_, ?_⟩
      · simp only [List.length_cons]
        omega
      · rw [List.getD_cons_succ]
        exact hk2

theorem mem_le_foldr_max (l : List Nat) : ∀ x, x ∈ l → x ≤ l.foldr max 0 := by
  induction l with
  | nil => intro x hx; cases hx
  | cons y rest ih =>
    intro x hx
    cases hx with
    | head => exact le_max_left _ _
    | tail _ h2 => exact Nat.le_trans (ih x h2) (le_max_right _ _)

/-- The union of the targets' root chains (as a finite node set). -/
def chainUnion (t : Tree) (targets : List Nat) : Finset Nat :=
  targets.foldr (fun x s => (chainList t x).toFinset ∪ s) ∅

theorem mem_chainUnion (t : Tree) (targets : List Nat) (n : Nat) :
    n ∈ chainUnion t targets ↔ ∃ x, x ∈ targets ∧ n ∈ chainList t x := by
  induction targets with
  | nil => simp [chainUnion]
  | cons y rest ih =>
    unfold chainUnion at ih ⊢
    simp only [List.foldr_cons, Finset.mem_union, List.mem_toFinset]
    constructor
    · intro h
      rcases h with h | h
      · exact ⟨y, List.mem_cons_self _ _, h⟩
      · obtain ⟨x, hx1, hx2⟩ := ih.mp h
        exact ⟨x, List.mem_cons_of_mem _ hx1, hx2⟩
    · rintro ⟨x, hx1, hx2⟩
      cases hx1 with
      | head => exact Or.inl hx2
      | tail _ h2 => exact Or.inr (ih.mpr ⟨x, h2, hx2⟩)

theorem vCard_zero (B : Nat) (st : BSt) (h : ∀ n, st.visited n = false) :
    vCard B st = 0 := by
  unfold vCard
  rw [Finset.card_eq_zero, Finset.filter_eq_empty_iff]
  intro n _
  rw [h n]
  simp

theorem vCard_eq_chainUnion (B : Nat) (t : Tree) (targets : List Nat) (st : BSt)
    (hv : ∀ n, st.visited n = true ↔ ∃ x, x ∈ targets ∧ n ∈ chainList t x)
    (hB : ∀ x, x ∈ targets → x < B) :
    vCard B st = (chainUnion t targets).card := by
  unfold vCard
  congr 1
  ext n
  simp only [Finset.mem_filter, Finset.mem_range, mem_chainUnion]
  rw [hv n]
  constructor
  · exact fun h => h.2
  · intro h
    obtain ⟨x, hx1, hx2⟩ := h
    exact ⟨Nat.lt_of_le_of_lt (chainList_le t x n hx2) (hB x hx1), ⟨x, hx1, hx2⟩⟩

/-- Master correctness of a successful batch query started on clean marks:
the result has one entry per target, each entry is the initial transformation
composed with the target's absolute transformation (duplicates included), all
transient marks are clean again on return, and the number of compositions
performed is exactly the size of the union of the targets' root chains. -/
theorem transformations_spec {M : Type} (comp : M → M → M) (dflt : M) (tr : Nat → M)
    (t : Tree) (a : Nat) (targets : List Nat) (init : M)
    (hassoc : ∀ x y z, comp (comp x y) z = comp x (comp y z)) (out : List M) (stF : BSt)
    (hrun : transformations comp dflt tr t a targets init cleanSt = (Except.ok out, stF)) :
    out.length = targets.length ∧
    (∀ k, k < targets.length →
      out.getD k dflt = comp init (absT comp tr t (targets.getD k 0))) ∧
    (∀ n, stF.visited n = false ∧ stF.joint n = false ∧ stF.counter n = NOCOUNTER) ∧
    stF.ccount = (chainUnion t targets).card := by
  unfold transformations at hrun
  by_cases hcap : NOCOUNTER ≤ targets.length
  · rw [if_pos hcap] at hrun
    simp at hrun
  rw [if_neg hcap] at hrun
  have hlen2 : targets.length ≤ NOCOUNTER := by omega
  by_cases hscene : sceneObject t a = some a
  case neg =>
    rw [if_neg hscene] at hrun
    simp at hrun
  rw [if_pos hscene] at hrun
  rcases hw : walkAll t a targets (markJoints cleanSt targets 0) targets with ⟨e, st2, jo⟩
  cases e with
  | some err =>
    rw [hw] at hrun
    simp at hrun
  | none =>
    rw [hw] at hrun
    dsimp only at hrun
    simp only [Prod.mk.injEq, Except.ok.injEq] at hrun
    obtain ⟨hout, hstF⟩ := hrun
    have hWInv0 := markJoints_inv t a targets hlen2
    have hwalk := walkAll_spec t a targets (markJoints cleanSt targets 0) targets hWInv0
      (fun m hm => Or.inr hm) (fun x hx => hx) st2 jo hw
    obtain ⟨hInvW, hStepW, hAllVisW, hchainW⟩ := hwalk
    have hst1vis : (markJoints cleanSt targets 0).visited = cleanSt.visited :=
      markJoints_visited targets 0 cleanSt
    have hVchar : ∀ n, st2.visited n = true ↔ ∃ x, x ∈ targets ∧ n ∈ chainList t x := by
      intro n
      constructor
      · intro hn
        rcases hchainW n hn with h | h
        · rw [hst1vis] at h
          simp [cleanSt] at h
        · exact h
      · rintro ⟨x, hx1, hx2⟩
        have hxjo : x ∈ jo := by
          obtain ⟨ext, hext⟩ := hStepW.joExt
          rw [hext]
          exact List.mem_append_left _ hx1
        exact chain_visited t a st2 jo hInvW hAllVisW x (hAllVisW x hxjo) n hx2
    have hjolen : targets.length ≤ jo.length := by
      obtain ⟨ext, hext⟩ := hStepW.joExt
      rw [hext, List.length_append]
      omega
    have hjofront : ∀ k, k < targets.length → jo.getD k 0 = targets.getD k 0 := by
      intro k hk
      obtain ⟨ext, hext⟩ := hStepW.joExt
      rw [hext, getD_append_left targets ext k 0 hk]
    have hCInv0 : CInv comp dflt tr t a init jo (targets.foldr max 0 + 1) [] none st2
        (List.replicate jo.length dflt) :=
      { jointMem := hInvW.jointMem
        counterIdx := hInvW.counterIdx
        counterLe := hInvW.counterLe
        closure := hInvW.closure
        uniqChild := hInvW.uniqChild
        hasChild := fun m hm _ => hInvW.hasChild m hm
        visBound := by
          intro m hm
          obtain ⟨x, hx1, hx2⟩ := (hVchar m).mp hm
          have h1 := chainList_le t x m hx2
          have h2 := mem_le_foldr_max targets x hx1
          omega
        jtLen := List.length_replicate _ _
        jtDone := by
          intro i hi _ _ hvi
          exfalso
          have hmem : jo.getD i 0 ∈ jo := getD_mem jo i 0 hi
          rw [hAllVisW _ hmem] at hvi
          cases hvi }
    have hcompute := computeAll_spec comp dflt tr t a init jo (targets.foldr max 0 + 1)
      hassoc jo.length 0 st2 (List.replicate jo.length dflt) (by omega) hCInv0
      (fun k hk => by omega)
    obtain ⟨hInvC, hPostC, hAllDoneC⟩ := hcompute
    have hNoVis : ∀ n,
        (computeAll comp dflt tr t init jo 0 st2 (List.replicate jo.length dflt)).1.visited n
          = false := by
      apply visited_empty_post comp dflt tr t a init jo (targets.foldr max 0 + 1) _ _ hInvC
      intro m hm
      obtain ⟨k, hk1, hk2⟩ := mem_getD_idx jo m hm
      rw [← hk2]
      exact hAllDoneC k hk1
    have hresolve := resolveDup_spec dflt jo
      (computeAll comp dflt tr t init jo 0 st2 (List.replicate jo.length dflt)).1
      targets.length
      (computeAll comp dflt tr t init jo 0 st2 (List.replicate jo.length dflt)).2
      hjolen hInvC.counterIdx targets.length 0
      (computeAll comp dflt tr t init jo 0 st2 (List.replicate jo.length dflt)).2
      (by omega) hInvC.jtLen (fun m _ _ => rfl) (fun m _ => rfl)
    obtain ⟨hR1, hR2, hR3⟩ := hresolve
    have hccl := cleanupMarks_spec jo
      (computeAll comp dflt tr t init jo 0 st2 (List.replicate jo.length dflt)).1
    obtain ⟨hc1, hc2, hc3, hc4⟩ := hccl
    subst hout
    subst hstF
    refine ⟨?_, ?_, ?_, ?_⟩
    · rw [List.length_take, hR1, hInvC.jtLen]
      omega
    · intro k hk
      have hkjo : k < jo.length := by omega
      have hnode : jo.getD k 0 ∈ jo := getD_mem jo k 0 hkjo
      obtain ⟨hflt, hfnode⟩ := hInvC.counterIdx (jo.getD k 0) hnode
      have hfcanon : (computeAll comp dflt tr t init jo 0 st2
          (List.replicate jo.length dflt)).1.counter
            (jo.getD ((computeAll comp dflt tr t init jo 0 st2
              (List.replicate jo.length dflt)).1.counter (jo.getD k 0)) 0) =
          (computeAll comp dflt tr t init jo 0 st2
            (List.replicate jo.length dflt)).1.counter (jo.getD k 0) := by
        rw [hfnode]
      have hvf : (computeAll comp dflt tr t init jo 0 st2
          (List.replicate jo.length dflt)).1.visited
            (jo.getD ((computeAll comp dflt tr t init jo 0 st2
              (List.replicate jo.length dflt)).1.counter (jo.getD k 0)) 0) = false :=
        hNoVis _
      have hdoneval := hInvC.jtDone _ hflt (List.not_mem_nil _) hfcanon hvf
      rw [hfnode] at hdoneval
      rw [getD_take_of_lt _ targets.length k dflt hk, hR2 k (by omega) hk, hdoneval,
        hjofront k hk]
    · intro n
      by_cases hnjo : n ∈ jo
      · obtain ⟨h5, h6⟩ := hc3 n hnjo
        refine ⟨?_, h5, h6⟩
        rw [hc1]
        exact hNoVis n
      · obtain ⟨h5, h6⟩ := hc4 n hnjo
        refine ⟨?_, ?_, ?_⟩
        · rw [hc1]
          exact hNoVis n
        · rw [h5, hPostC.jointEq n]
          cases hj2 : st2.joint n with
          | false => rfl
          | true => exact absurd ((hInvW.jointMem n).mp hj2) hnjo
        · rw [h6, hPostC.counterEq n]
          exact hInvW.counterNone n hnjo
    · rw [hc2]
      have hsum := hPostC.ccSum
      have hzero := vCard_zero (targets.foldr max 0 + 1)
        (computeAll comp dflt tr t init jo 0 st2 (List.replicate jo.length dflt)).1 hNoVis
      have hcc2 : st2.ccount = 0 := by
        rw [hStepW.ccEq, markJoints_ccount targets 0 cleanSt]
        rfl
      have hveq := vCard_eq_chainUnion (targets.foldr max 0 + 1) t targets st2 hVchar
        (fun x hx => by
          have := mem_le_foldr_max targets x hx
          omega)
      omega


/-! ### Success of the walk on fresh marks -/

theorem rootOf_root (t : Tree) (n : Nat) (h : t.parent n = none) : rootOf t n = n := by
  rw [rootOf]
  split
  · rfl
  · next p heq => rw [h] at heq; cases heq

theorem rootOf_parent (t : Tree) (n p : Nat) (h : t.parent n = some p) :
    rootOf t n = rootOf t p := by
  rw [rootOf]
  split
  · next heq => rw [h] at heq; cases heq
  · next p2 heq =>
    rw [h] at heq
    cases heq
    rfl

theorem sceneObject_scene (t : Tree) (n : Nat) (h : t.isScene n = true) :
    sceneObject t n = some n := by
  rw [sceneObject]
  simp [h]

theorem sceneObject_climb (t : Tree) (n p : Nat) (hs : t.isScene n = false)
    (hp : t.parent n = some p) : sceneObject t n = sceneObject t p := by
  rw [sceneObject]
  simp only [hs, Bool.false_eq_true, if_false]
  split
  · next heq => rw [hp] at heq; cases heq
  · next p2 heq =>
    rw [hp] at heq
    cases heq
    rfl

/-- A walk from a node whose whole chain is unvisited and joint-free (except
possibly the node itself) and roots at the anchor succeeds without touching
the worklist. -/
theorem walkUp_fresh (t : Tree) (a : Nat) :
    ∀ n st jo,
      (∀ m, m ∈ chainList t n → st.visited m = false) →
      (∀ m, m ∈ chainList t n → m = n ∨ st.joint m = false) →
      rootOf t n = a →
      ∃ st2, walkUp t a n st jo = (none, st2, jo) ∧ st2.visited n = true ∧
        ∀ m, st.visited m = true → st2.visited m = true := by
  intro n
  induction n using Nat.strong_induction_on with
  | _ n IH =>
    intro st jo hv hj hr
    have hvn : st.visited n = false := hv n (chainList_self t n)
    cases hp : t.parent n with
    | none =>
      have hna : n = a := by rw [← hr, rootOf_root t n hp]
      exact ⟨{ st with visited := updF st.visited n true },
        by rw [walkUp_root t a n st jo hvn hp, if_pos hna],
        updF_same st.visited n true,
        fun m hm => updF_true_mono st.visited n m hm⟩
    | some p =>
      have hplt : p < n := t.parent_lt n p hp
      have hpchain : p ∈ chainList t n := by
        rw [chainList_parent t n p hp]
        exact List.mem_cons_of_mem _ (chainList_self t p)
      have hjp : st.joint p = false := by
        rcases hj p hpchain with h | h
        · omega
        · exact h
      have hvp : st.visited p = false := hv p hpchain
      obtain ⟨st2, heq, hvis2, hmono2⟩ := IH p hplt
        { st with visited := updF st.visited n true } jo
        (by
          intro m hm
          have hmn : m ≠ n := by
            have := chainList_le t p m hm
            omega
          show updF st.visited n true m = false
          rw [updF_other st.visited n true m hmn]
          apply hv
          rw [chainList_parent t n p hp]
          exact List.mem_cons_of_mem _ hm)
        (by
          intro m hm
          have hmn : m ≠ n := by
            have := chainList_le t p m hm
            omega
          rcases hj m (by rw [chainList_parent t n p hp]; exact List.mem_cons_of_mem _ hm)
              with h | h
          · exact absurd h hmn
          · exact Or.inr h)
        (by rw [← hr, rootOf_parent t n p hp])
      refine ⟨st2, ?_, ?_, ?_⟩
      · rw [walkUp_climb t a n p st jo hvn hp hjp hvp (by omega)]
        exact heq
      · exact hmono2 n (updF_same st.visited n true)
      · intro m hm
        exact hmono2 m (updF_true_mono st.visited n m hm)

/-- A single-target batch query on a node rooting at the scene anchor takes the
success path. -/
theorem transformations_single_ok {M : Type} (comp : M → M → M) (dflt : M) (tr : Nat → M)
    (t : Tree) (a N : Nat) (init : M)
    (hscene : t.isScene a = true) (hroot : rootOf t N = a) :
    ∃ out stF, transformations comp dflt tr t a [N] init cleanSt = (Except.ok out, stF) := by
  have hjmark : ∀ m, (markJoints cleanSt [N] 0).joint m = decide (m ∈ [N]) := by
    intro m
    rw [markJoints_joint [N] 0 cleanSt m]
    simp [cleanSt]
  obtain ⟨st2, hwu, -, -⟩ := walkUp_fresh t a N (markJoints cleanSt [N] 0) [N]
    (fun m _ => by rw [markJoints_visited [N] 0 cleanSt]; rfl)
    (fun m _ => by
      rw [hjmark m]
      by_cases hmN : m = N
      · exact Or.inl hmN
      · refine Or.inr ?_
        simp [hmN])
    hroot
  have hwalk : walkAll t a [N] (markJoints cleanSt [N] 0) [N] = (none, st2, [N]) := by
    have hstep : walkAll t a [N] (markJoints cleanSt [N] 0) [N] =
        match walkUp t a N (markJoints cleanSt [N] 0) [N] with
        | (some e, st3, jo3) => (some e, st3, jo3)
        | (none, st3, jo3) => walkAll t a [] st3 jo3 := rfl
    rw [hstep, hwu]
    rfl
  unfold transformations
  rw [if_neg (by simp [NOCOUNTER])]
  rw [if_pos (sceneObject_scene t a hscene)]
  rw [hwalk]
  exact ⟨_, _, rfl⟩

/-- As soon as the walk succeeds (and the guards pass), the whole query
returns an `ok` result. -/
theorem transformations_ok_of_walk {M : Type} (comp : M → M → M) (dflt : M) (tr : Nat → M)
    (t : Tree) (a : Nat) (targets : List Nat) (init : M)
    (hcap : targets.length < NOCOUNTER)
    (hscene : t.isScene a = true)
    (hwalk : (walkAll t a targets (markJoints cleanSt targets 0) targets).1 = none) :
    ∃ out, (transformations comp dflt tr t a targets init cleanSt).1 = Except.ok out := by
  unfold transformations
  rw [if_neg (by omega)]
  rw [if_pos (sceneObject_scene t a hscene)]
  rcases hw : walkAll t a targets (markJoints cleanSt targets 0) targets with ⟨e, st2, jo⟩
  rw [hw] at hwalk
  cases e with
  | some err => cases hwalk
  | none => exact ⟨_, rfl⟩

/-- A successful ancestor-walk step never pushes the worklist past the 16-bit
capacity. -/
theorem walkUp_len (t : Tree) (a : Nat) :
    ∀ n st jo e st2 jo2, walkUp t a n st jo = (e, st2, jo2) →
      jo.length ≤ NOCOUNTER → jo2.length ≤ NOCOUNTER := by
  intro n
  induction n using Nat.strong_induction_on with
  | _ n IH =>
    intro st jo e st2 jo2 h hlen
    cases hv : st.visited n with
    | true =>
      rw [walkUp_visited t a n st jo hv] at h
      obtain ⟨-, -, rfl⟩ := Prod.mk.injEq .. ▸ h
      exact hlen
    | false =>
      cases hp : t.parent n with
      | none =>
        rw [walkUp_root t a n st jo hv hp] at h
        obtain ⟨-, -, rfl⟩ := Prod.mk.injEq .. ▸ h
        exact hlen
      | some p =>
        cases hj : st.joint p with
        | true =>
          rw [walkUp_stopJoint t a n p st jo hv hp hj] at h
          obtain ⟨-, -, rfl⟩ := Prod.mk.injEq .. ▸ h
          exact hlen
        | false =>
          cases hvp : st.visited p with
          | true =>
            by_cases hcap : jo.length < NOCOUNTER
            · rw [walkUp_promote t a n p st jo hv hp hj hvp hcap] at h
              obtain ⟨-, -, rfl⟩ := Prod.mk.injEq .. ▸ h
              rw [List.length_append]
              simp only [List.length_cons, List.length_nil]
              omega
            · rw [walkUp_promoteFail t a n p st jo hv hp hj hvp hcap] at h
              obtain ⟨-, -, rfl⟩ := Prod.mk.injEq .. ▸ h
              exact hlen
          | false =>
            have hplt : p < n := t.parent_lt n p hp
            rw [walkUp_climb t a n p st jo hv hp hj hvp (by omega)] at h
            exact IH p hplt _ _ _ _ _ h hlen

/-- The whole walk never pushes the worklist past the 16-bit capacity. -/
theorem walkAll_len (t : Tree) (a : Nat) :
    ∀ ts st jo e st2 jo2, walkAll t a ts st jo = (e, st2, jo2) →
      jo.length ≤ NOCOUNTER → jo2.length ≤ NOCOUNTER := by
  intro ts
  induction ts with
  | nil =>
    intro st jo e st2 jo2 h hlen
    obtain ⟨-, -, rfl⟩ := Prod.mk.injEq .. ▸ h
    exact hlen
  | cons x rest ih =>
    intro st jo e st2 jo2 h hlen
    rcases hw : walkUp t a x st jo with ⟨e1, st1, jo1⟩
    have hlen1 : jo1.length ≤ NOCOUNTER := walkUp_len t a x st jo e1 st1 jo1 hw hlen
    have hstep : walkAll t a (x :: rest) st jo =
        match walkUp t a x st jo with
        | (some e3, st3, jo3) => (some e3, st3, jo3)
        | (none, st3, jo3) => walkAll t a rest st3 jo3 := rfl
    rw [hstep, hw] at h
    cases e1 with
    | some err =>
      obtain ⟨-, -, rfl⟩ := Prod.mk.injEq .. ▸ h
      exact hlen1
    | none => exact ih st1 jo1 e st2 jo2 h hlen1


/-! ### Concrete fixtures and the claim theorems for the batch solver -/

/-- The successful payload of a query result (the error case yields `[]`,
mirroring the `CORRADE_ASSERT(..., {})` empty return). -/
def okList {M : Type} (r : Except BErr (List M)) : List M :=
  match r with
  | Except.ok l => l
  | Except.error _ => []

/-- A three-node line `0 ← 1 ← 2` with the scene at node 0; all other node ids
are parentless non-scenes. -/
def treeLine : Tree where
  parent n := if n = 1 then some 0 else if n = 2 then some 1 else none
  isScene n := n == 0
  parent_lt := by
    intro n p h
    have h0 : (if n = 1 then some 0 else if n = 2 then some 1 else none) = some p := h
    by_cases h1 : n = 1
    · rw [if_pos h1] at h0
      cases h0
      omega
    · rw [if_neg h1] at h0
      by_cases h2 : n = 2
      · rw [if_pos h2] at h0
        cases h0
        omega
      · rw [if_neg h2] at h0
        cases h0

/-- A duplicated single target also walks successfully: the second occurrence
finds the node already visited. -/
theorem walkAll_dup_ok (t : Tree) (a N : Nat) (hroot : rootOf t N = a) :
    (walkAll t a [N, N] (markJoints cleanSt [N, N] 0) [N, N]).1 = none := by
  have hjmark : ∀ m, (markJoints cleanSt [N, N] 0).joint m = decide (m ∈ [N, N]) := by
    intro m
    rw [markJoints_joint [N, N] 0 cleanSt m]
    simp [cleanSt]
  obtain ⟨st2, hwu, hvis2, -⟩ := walkUp_fresh t a N (markJoints cleanSt [N, N] 0) [N, N]
    (fun m _ => by rw [markJoints_visited [N, N] 0 cleanSt]; rfl)
    (fun m _ => by
      rw [hjmark m]
      by_cases hmN : m = N
      · exact Or.inl hmN
      · refine Or.inr ?_
        simp [hmN])
    hroot
  have hstep1 : walkAll t a [N, N] (markJoints cleanSt [N, N] 0) [N, N] =
      match walkUp t a N (markJoints cleanSt [N, N] 0) [N, N] with
      | (some e, st3, jo3) => (some e, st3, jo3)
      | (none, st3, jo3) => walkAll t a [N] st3 jo3 := rfl
  rw [hstep1, hwu]
  show (walkAll t a [N] st2 [N, N]).1 = none
  have hstep2 : walkAll t a [N] st2 [N, N] =
      match walkUp t a N st2 [N, N] with
      | (some e, st3, jo3) => (some e, st3, jo3)
      | (none, st3, jo3) => walkAll t a [] st3 jo3 := rfl
  rw [hstep2, walkUp_visited t a N st2 [N, N] hvis2]
  rfl

/-- The projected form of `transformations_single_ok`. -/
theorem single_ok_fst {M : Type} (comp : M → M → M) (dflt : M) (tr : Nat → M)
    (t : Tree) (a N : Nat) (init : M)
    (hscene : t.isScene a = true) (hroot : rootOf t N = a) :
    ∃ out, (transformations comp dflt tr t a [N] init cleanSt).1 = Except.ok out := by
  obtain ⟨out, stF, h⟩ := transformations_single_ok comp dflt tr t a N init hscene hroot
  exact ⟨out, by rw [h]⟩

/-- Rebuild the full pair equation from the projected success fact. -/
theorem run_of_fst {M : Type} (comp : M → M → M) (dflt : M) (tr : Nat → M)
    (t : Tree) (a : Nat) (targets : List Nat) (init : M) (out : List M)
    (hout : (transformations comp dflt tr t a targets init cleanSt).1 = Except.ok out) :
    transformations comp dflt tr t a targets init cleanSt =
      (Except.ok out, (transformations comp dflt tr t a targets init cleanSt).2) := by
  rw [← hout]

/-- C1: for a node `N` whose root is the scene anchor `a`, the batch solver on
the single target list `[N]` with an identity initial transformation returns
exactly `[absoluteTransformation N]`, the uncached recursive root-to-node
composition. -/
theorem c1_agreement {M : Type} (comp : M → M → M) (dflt : M) (tr : Nat → M)
    (t : Tree) (a N : Nat) (e : M)
    (hassoc : ∀ x y z, comp (comp x y) z = comp x (comp y z))
    (hid : ∀ x, comp e x = x)
    (hscene : t.isScene a = true) (hroot : rootOf t N = a) :
    (transformations comp dflt tr t a [N] e cleanSt).1 =
      Except.ok [absT comp tr t N] := by
  obtain ⟨out, stF, hrun⟩ := transformations_single_ok comp dflt tr t a N e hscene hroot
  obtain ⟨hlen, hval, -, -⟩ := transformations_spec comp dflt tr t a [N] e hassoc out stF hrun
  cases out with
  | nil => simp at hlen
  | cons x rest =>
    cases rest with
    | cons y rest2 => simp at hlen
    | nil =>
      have hx : x = comp e (absT comp tr t N) := by
        have h0 := hval 0 (by simp)
        simpa using h0
      rw [hrun, hx, hid]

/-- C1 witness: on the line tree, querying node 1 from the scene 0 with
addition as composition returns the sum of the local transformations along
the chain. -/
theorem c1_agreement_witness :
    (transformations (fun x y : Nat => x + y) 0 (fun n => n + 1) treeLine 0 [1] 0 cleanSt).1 =
      Except.ok [absT (fun x y : Nat => x + y) (fun n => n + 1) treeLine 1] :=
  c1_agreement (fun x y => x + y) 0 (fun n => n + 1) treeLine 0 1 0
    (fun x y z => Nat.add_assoc x y z) (fun x => Nat.zero_add x) rfl
    (by rw [rootOf_parent treeLine 1 0 rfl, rootOf_root treeLine 0 rfl])

/-- C2: whenever a batch query succeeds and the target list holds the same
node at two positions, the returned list holds identical values at those two
positions. -/
theorem c2_duplicate {M : Type} (comp : M → M → M) (dflt : M) (tr : Nat → M)
    (t : Tree) (a : Nat) (targets : List Nat) (init : M) (i j : Nat)
    (hassoc : ∀ x y z, comp (comp x y) z = comp x (comp y z))
    (hok : ∃ out, (transformations comp dflt tr t a targets init cleanSt).1 = Except.ok out)
    (hi : i < targets.length) (hj : j < targets.length)
    (hdup : targets.getD i 0 = targets.getD j 0) :
    (okList (transformations comp dflt tr t a targets init cleanSt).1).getD i dflt =
      (okList (transformations comp dflt tr t a targets init cleanSt).1).getD j dflt := by
  obtain ⟨out, hout⟩ := hok
  obtain ⟨-, hval, -, -⟩ := transformations_spec comp dflt tr t a targets init hassoc out _
    (run_of_fst comp dflt tr t a targets init out hout)
  rw [hout]
  show out.getD i dflt = out.getD j dflt
  rw [hval i hi, hval j hj, hdup]

/-- C2 witness: the duplicated target list `[1, 1]` on the line tree yields
equal entries at both positions. -/
theorem c2_duplicate_witness :
    (okList (transformations (fun x y : Nat => x + y) 0 (fun n => n + 1) treeLine 0 [1, 1] 0
        cleanSt).1).getD 0 0 =
      (okList (transformations (fun x y : Nat => x + y) 0 (fun n => n + 1) treeLine 0 [1, 1] 0
        cleanSt).1).getD 1 0 :=
  c2_duplicate (fun x y => x + y) 0 (fun n => n + 1) treeLine 0 [1, 1] 0 0 1
    (fun x y z => Nat.add_assoc x y z)
    (transformations_ok_of_walk (fun x y => x + y) 0 (fun n => n + 1) treeLine 0 [1, 1] 0
      (by simp [NOCOUNTER]) rfl
      (walkAll_dup_ok treeLine 0 1
        (by rw [rootOf_parent treeLine 1 0 rfl, rootOf_root treeLine 0 rfl])))
    (by simp) (by simp) rfl

/-- C3: on every successful batch query, the number of `compose` calls
performed equals the size of the union of the targets' root chains, so a path
segment shared by several targets is composed once, independently of how many
targets share it. -/
theorem c3_sharing {M : Type} (comp : M → M → M) (dflt : M) (tr : Nat → M)
    (t : Tree) (a : Nat) (targets : List Nat) (init : M)
    (hassoc : ∀ x y z, comp (comp x y) z = comp x (comp y z))
    (hok : ∃ out, (transformations comp dflt tr t a targets init cleanSt).1 = Except.ok out) :
    (transformations comp dflt tr t a targets init cleanSt).2.ccount =
      (chainUnion t targets).card := by
  obtain ⟨out, hout⟩ := hok
  exact (transformations_spec comp dflt tr t a targets init hassoc out _
    (run_of_fst comp dflt tr t a targets init out hout)).2.2.2

/-- C3 witness: querying node 1 on the line tree performs exactly two
compositions, the size of the chain `{0, 1}`. -/
theorem c3_sharing_witness :
    (transformations (fun x y : Nat => x + y) 0 (fun n => n + 1) treeLine 0 [1] 0
        cleanSt).2.ccount = (chainUnion treeLine [1]).card :=
  c3_sharing (fun x y => x + y) 0 (fun n => n + 1) treeLine 0 [1] 0
    (fun x y z => Nat.add_assoc x y z)
    (single_ok_fst (fun x y => x + y) 0 (fun n => n + 1) treeLine 0 1 0 rfl
      (by rw [rootOf_parent treeLine 1 0 rfl, rootOf_root treeLine 0 rfl]))

/-- C4 counterexample: calling the batch query on an anchor that is not the
scene fails with the `notScene` assertion only after the joint-marking loop
has run, so the error return leaks the joint flag and the counter of the
target node instead of resetting them. -/
theorem c4_counterexample :
    (transformations (fun x y : Nat => x + y) 0 (fun n => n + 1) treeLine 1 [1] 0 cleanSt).1 =
      Except.error BErr.notScene ∧
    (transformations (fun x y : Nat => x + y) 0 (fun n => n + 1) treeLine 1 [1] 0
        cleanSt).2.joint 1 = true ∧
    (transformations (fun x y : Nat => x + y) 0 (fun n => n + 1) treeLine 1 [1] 0
        cleanSt).2.counter 1 = 0 := by
  have hso : sceneObject treeLine 1 = some 0 := by
    rw [sceneObject_climb treeLine 1 0 rfl rfl, sceneObject_scene treeLine 0 rfl]
  have hrun : transformations (fun x y : Nat => x + y) 0 (fun n => n + 1) treeLine 1 [1] 0
      cleanSt = (Except.error BErr.notScene, markJoints cleanSt [1] 0) := by
    unfold transformations
    rw [if_neg (by simp [NOCOUNTER])]
    rw [if_neg (by rw [hso]; decide)]
  rw [hrun]
  exact ⟨rfl, rfl, rfl⟩

/-- C4 (amended to the success path): whenever the batch query returns
successfully, every node's visited flag, joint flag and counter in the
returned mark state are back in their clean-slate values. -/
theorem c4_cleanup_amended {M : Type} (comp : M → M → M) (dflt : M) (tr : Nat → M)
    (t : Tree) (a : Nat) (targets : List Nat) (init : M)
    (hassoc : ∀ x y z, comp (comp x y) z = comp x (comp y z))
    (hok : ∃ out, (transformations comp dflt tr t a targets init cleanSt).1 = Except.ok out) :
    ∀ n, (transformations comp dflt tr t a targets init cleanSt).2.visited n = false ∧
      (transformations comp dflt tr t a targets init cleanSt).2.joint n = false ∧
      (transformations comp dflt tr t a targets init cleanSt).2.counter n = NOCOUNTER := by
  obtain ⟨out, hout⟩ := hok
  exact (transformations_spec comp dflt tr t a targets init hassoc out _
    (run_of_fst comp dflt tr t a targets init out hout)).2.2.1

/-- C4 witness: the successful single-target query on the line tree returns
with node 1's marks reset. -/
theorem c4_cleanup_amended_witness :
    (transformations (fun x y : Nat => x + y) 0 (fun n => n + 1) treeLine 0 [1] 0
        cleanSt).2.visited 1 = false ∧
    (transformations (fun x y : Nat => x + y) 0 (fun n => n + 1) treeLine 0 [1] 0
        cleanSt).2.joint 1 = false ∧
    (transformations (fun x y : Nat => x + y) 0 (fun n => n + 1) treeLine 0 [1] 0
        cleanSt).2.counter 1 = NOCOUNTER :=
  c4_cleanup_amended (fun x y => x + y) 0 (fun n => n + 1) treeLine 0 [1] 0
    (fun x y z => Nat.add_assoc x y z)
    (single_ok_fst (fun x y => x + y) 0 (fun n => n + 1) treeLine 0 1 0 rfl
      (by rw [rootOf_parent treeLine 1 0 rfl, rootOf_root treeLine 0 rfl])) 1

/-- C5: a target count at or above the 16-bit ceiling fails immediately with
the capacity error and an unchanged state; a mid-walk promotion attempted at
full capacity fails with the same distinct capacity error; and a completed
walk never pushes the joint list beyond the ceiling (no index is ever
truncated). -/
theorem c5_capacity {M : Type} (comp : M → M → M) (dflt : M) (tr : Nat → M)
    (t : Tree) (a : Nat) (targets : List Nat) (init : M) (st0 : BSt) :
    (NOCOUNTER ≤ targets.length →
      transformations comp dflt tr t a targets init st0 =
        (Except.error BErr.tooLargeScene, st0)) ∧
    (∀ n st jo p, st.visited n = false → t.parent n = some p → st.joint p = false →
      st.visited p = true → NOCOUNTER ≤ jo.length →
      (walkUp t a n st jo).1 = some BErr.tooLargeScene) ∧
    (∀ st jo e st2 jo2, walkAll t a targets st jo = (e, st2, jo2) →
      jo.length ≤ NOCOUNTER → jo2.length ≤ NOCOUNTER) := by
  refine ⟨?_, ?_, ?_⟩
  · intro h
    unfold transformations
    rw [if_pos h]
  · intro n st jo p hv hp hj hvp hcap
    rw [walkUp_promoteFail t a n p st jo hv hp hj hvp (by omega)]
  · intro st jo e st2 jo2 h hlen
    exact walkAll_len t a targets st jo e st2 jo2 h hlen

/-- C5 witness: 65535 targets trip the capacity check and the state is
returned untouched. -/
theorem c5_capacity_witness :
    transformations (fun x y : Nat => x + y) 0 (fun n => n + 1) treeLine 0
        (List.replicate 65535 0) 0 cleanSt =
      (Except.error BErr.tooLargeScene, cleanSt) :=
  (c5_capacity (fun x y => x + y) 0 (fun n => n + 1) treeLine 0 (List.replicate 65535 0) 0
    cleanSt).1 (by rw [List.length_replicate]; exact Nat.le_refl 65535)

/-- C9: `absoluteTransformation` on any parentless node — scene root or merely
detached — is the node's own local transformation, with no error and no
distinction between the two cases. -/
theorem c9_detached {M : Type} (comp : M → M → M) (tr : Nat → M) (t : Tree) (n : Nat)
    (h : t.parent n = none) : absT comp tr t n = tr n :=
  absT_root comp tr t n h

/-- C9 witness: node 5 of the line tree is parentless and not the scene, and
its absolute transformation is its local one. -/
theorem c9_detached_witness :
    absT (fun x y : Nat => x + y) (fun n => n + 1) treeLine 5 = 6 ∧
      treeLine.isScene 5 = false := by
  refine ⟨?_, rfl⟩
  rw [c9_detached (fun x y => x + y) (fun n => n + 1) treeLine 5 rfl]


/-! ### Parent-chain lemmas for the mutable-tree model -/

theorem getD_of_ge {α : Type} (l : List α) (i : Nat) (d : α) (h : l.length ≤ i) :
    l.getD i d = d := by
  simp [List.getD_eq_getElem?_getD, List.getElem?_eq_none h]

theorem parentIter_congr {M : Type} (s s2 : GState M) (h : s.parents = s2.parents) :
    ∀ k m, parentIter s k m = parentIter s2 k m := by
  intro k
  induction k with
  | zero => intro m; rfl
  | succ k ih =>
    intro m
    have e1 : parentIter s (k + 1) m =
        match parentIter s k m with
        | none => none
        | some x => s.parent x := rfl
    have e2 : parentIter s2 (k + 1) m =
        match parentIter s2 k m with
        | none => none
        | some x => s2.parent x := rfl
    rw [e1, e2, ih m]
    cases parentIter s2 k m with
    | none => rfl
    | some x =>
      show s.parent x = s2.parent x
      unfold GState.parent
      rw [h]

theorem childrenOf_congr {M : Type} (s s2 : GState M) (h : s.parents = s2.parents) :
    ∀ n, childrenOf s n = childrenOf s2 n := by
  intro n
  unfold childrenOf GState.size
  rw [h]
  apply List.filter_congr
  intro c _
  show decide (s.parent c = some n) = decide (s2.parent c = some n)
  unfold GState.parent
  rw [h]

theorem mem_childrenOf {M : Type} (s : GState M) (n c : Nat) :
    c ∈ childrenOf s n ↔ c < s.size ∧ s.parent c = some n := by
  unfold childrenOf
  simp [List.mem_filter, List.mem_range]

/-- Compose one more parent step on top of an iterated walk. -/
theorem parentIter_top {M : Type} (s : GState M) (k m c n : Nat)
    (h1 : parentIter s k m = some c) (h2 : s.parent c = some n) :
    parentIter s (k + 1) m = some n := by
  have e : parentIter s (k + 1) m =
      match parentIter s k m with
      | none => none
      | some x => s.parent x := rfl
  rw [e, h1]
  exact h2

/-- Peel the first parent step off an iterated walk. -/
theorem parentIter_succ_bottom {M : Type} (s : GState M) :
    ∀ k m, parentIter s (k + 1) m =
      match s.parent m with
      | none => none
      | some p => parentIter s k p := by
  intro k
  induction k with
  | zero =>
    intro m
    cases hp : s.parent m with
    | none => show s.parent m = none; exact hp
    | some p => show s.parent m = some p; exact hp
  | succ k ih =>
    intro m
    have e1 : parentIter s (k + 2) m =
        match parentIter s (k + 1) m with
        | none => none
        | some x => s.parent x := rfl
    rw [e1, ih m]
    cases hp : s.parent m with
    | none => rfl
    | some p => rfl

theorem parentIter_add {M : Type} (s : GState M) :
    ∀ d j m x, parentIter s j m = some x →
      parentIter s (j + d) m = parentIter s d x := by
  intro d
  induction d with
  | zero =>
    intro j m x h
    rw [Nat.add_zero, h]
    rfl
  | succ d ih =>
    intro j m x h
    have e1 : parentIter s (j + (d + 1)) m =
        match parentIter s (j + d) m with
        | none => none
        | some y => s.parent y := rfl
    have e2 : parentIter s (d + 1) x =
        match parentIter s d x with
        | none => none
        | some y => s.parent y := rfl
    rw [e1, e2, ih j m x h]

/-- A walk position that still yields a node forces the position below the
root-reaching fuel. -/
theorem parentIter_lt_of_reaches {M : Type} (s : GState M) :
    ∀ f m, reachesRootB s f (some m) = true →
      ∀ k x, parentIter s k m = some x → k < f := by
  intro f
  induction f with
  | zero =>
    intro m h
    exact absurd h (by exact Bool.false_ne_true)
  | succ f ih =>
    intro m h k x hk
    cases k with
    | zero => omega
    | succ k =>
      rw [parentIter_succ_bottom] at hk
      cases hp : s.parent m with
      | none =>
        rw [hp] at hk
        cases hk
      | some p =>
        rw [hp] at hk
        have hr : reachesRootB s f (some p) = true := by
          have e : reachesRootB s (f + 1) (some m) = reachesRootB s f (s.parent m) := rfl
          rw [e, hp] at h
          exact h
        have := ih p hr k x hk
        omega

theorem WFb_facts {M : Type} (s : GState M) (hwf : WFb s = true) :
    ∀ n, n < s.size → (∀ p, s.parent n = some p → p < s.size) ∧
      reachesRootB s s.size (some n) = true := by
  intro n hn
  unfold WFb at hwf
  rw [List.all_eq_true] at hwf
  have h := hwf n (List.mem_range.mpr hn)
  rw [Bool.and_eq_true] at h
  refine ⟨?_, h.2⟩
  intro p hp
  have h1 := h.1
  rw [hp] at h1
  exact of_decide_eq_true h1

theorem isAncestorOfB_none {M : Type} (s : GState M) (f n : Nat) :
    isAncestorOfB s f n none = false := by
  cases f <;> rfl

/-- A refused cycle guard really means no upward walk within the fuel reaches
the node. -/
theorem isAncestor_false_no_hit {M : Type} (s : GState M) :
    ∀ f q n, isAncestorOfB s f n (some q) = false →
      ∀ d, d < f → parentIter s d q = some n → False := by
  intro f
  induction f with
  | zero => intro q n h d hd; omega
  | succ f ih =>
    intro q n h d hdf hit
    have e : isAncestorOfB s (f + 1) n (some q) =
        if q = n then true else isAncestorOfB s f n (s.parent q) := rfl
    rw [e] at h
    by_cases hq : q = n
    · rw [if_pos hq] at h
      cases h
    · rw [if_neg hq] at h
      cases d with
      | zero => exact hq (Option.some.inj hit)
      | succ d =>
        rw [parentIter_succ_bottom] at hit
        cases hp : s.parent q with
        | none =>
          rw [hp] at hit
          cases hit
        | some p =>
          rw [hp] at hit
          rw [hp] at h
          exact ih p n h d (by omega) hit

/-- Until a relinked walk first reaches the relinked node, it only uses the
original links. -/
theorem firstHit_old {M : Type} (s s1 : GState M) (n : Nat) (np : Option Nat)
    (hs1 : s1.parents = s.parents.set n np) :
    ∀ k q, (∀ j, j < k → parentIter s1 j q ≠ some n) →
      parentIter s1 k q = some n → parentIter s k q = some n := by
  intro k
  induction k with
  | zero => intro q _ h; exact h
  | succ k ih =>
    intro q hfirst h
    rw [parentIter_succ_bottom] at h
    cases hp : s1.parent q with
    | none =>
      rw [hp] at h
      cases h
    | some x =>
      rw [hp] at h
      have hq : q ≠ n := by
        intro hqe
        exact hfirst 0 (Nat.succ_pos k) (by show some q = some n; rw [hqe])
      have hpq : s.parent q = some x := by
        unfold GState.parent at hp
        rw [hs1, getD_set_ne s.parents n q np none hq] at hp
        exact hp
      have hfirst2 : ∀ j, j < k → parentIter s1 j x ≠ some n := by
        intro j hj hh
        apply hfirst (j + 1) (by omega)
        rw [parentIter_succ_bottom, hp]
        exact hh
      have hx := ih x hfirst2 h
      rw [parentIter_succ_bottom, hpq]
      exact hx

/-- After the cycle guard refused the new parent, no relinked walk starting at
the new parent ever returns to the relinked node. -/
theorem relink_no_return {M : Type} (s : GState M) (n : Nat) (np : Option Nat) (q : Nat)
    (hwf : WFb s = true)
    (hguard : isAncestorOfB s (s.size + 1) n np = false) (hnp : np = some q) :
    ∀ d, parentIter { s with parents := s.parents.set n np } d q ≠ some n := by
  subst hnp
  intro d
  induction d using Nat.strong_induction_on with
  | _ d IH =>
    intro hit
    by_cases hje : ∃ j, j < d ∧
        parentIter { s with parents := s.parents.set n (some q) } j q = some n
    · obtain ⟨j, hj1, hj2⟩ := hje
      exact IH j hj1 hj2
    · push_neg at hje
      have hold : parentIter s d q = some n :=
        firstHit_old s { s with parents := s.parents.set n (some q) } n (some q) rfl d q
          (fun j hj => hje j hj) hit
      have hqn : q ≠ n := by
        intro hqe
        have e : isAncestorOfB s (s.size + 1) n (some q) =
            if q = n then true else isAncestorOfB s s.size n (s.parent q) := rfl
        rw [e, if_pos hqe] at hguard
        cases hguard
      cases d with
      | zero => exact hqn (Option.some.inj hold)
      | succ d0 =>
        have hold2 := hold
        rw [parentIter_succ_bottom] at hold2
        cases hpq : s.parent q with
        | none =>
          rw [hpq] at hold2
          cases hold2
        | some x =>
          have hqlt : q < s.size := by
            by_contra hge
            unfold GState.parent at hpq
            rw [getD_of_ge s.parents q none (by
              unfold GState.size at hge
              omega)] at hpq
            cases hpq
          have hb := (WFb_facts s hwf q hqlt).2
          have hdlt := parentIter_lt_of_reaches s s.size q hb (d0 + 1) n hold
          exact isAncestor_false_no_hit s (s.size + 1) q n hguard (d0 + 1) (by omega) hold

/-- Any relinked walk that reaches the relinked node does so within the arena
size: the relink keeps every chain to the node short. -/
theorem relink_iter_bound {M : Type} (s : GState M) (n : Nat) (np : Option Nat)
    (hwf : WFb s = true) (hn : n < s.size)
    (hguard : isAncestorOfB s (s.size + 1) n np = false) :
    ∀ m k, parentIter { s with parents := s.parents.set n np } k m = some n →
      k ≤ s.size := by
  intro m k hit
  by_cases hje : ∃ j, j < k ∧
      parentIter { s with parents := s.parents.set n np } j m = some n
  · exfalso
    obtain ⟨j, hj1, hj2⟩ := hje
    have hk : j + (k - j) = k := by omega
    have hrest : parentIter { s with parents := s.parents.set n np } (k - j) n = some n := by
      have hadd := parentIter_add { s with parents := s.parents.set n np } (k - j) j m n hj2
      rw [hk] at hadd
      rw [← hadd]
      exact hit
    cases hd : k - j with
    | zero => omega
    | succ d =>
      rw [hd] at hrest
      rw [parentIter_succ_bottom] at hrest
      have hpn : ({ s with parents := s.parents.set n np } : GState M).parent n = np := by
        unfold GState.parent
        exact getD_set_self s.parents n np none (by unfold GState.size at hn; omega)
      rw [hpn] at hrest
      cases hnp : np with
      | none =>
        rw [hnp] at hrest
        cases hrest
      | some q =>
        rw [hnp] at hrest hguard
        exact relink_no_return s n (some q) q hwf hguard rfl d hrest
  · push_neg at hje
    cases k with
    | zero => omega
    | succ k0 =>
      have hold := firstHit_old s { s with parents := s.parents.set n np } n np rfl (k0 + 1) m
        (fun j hj => hje j hj) hit
      have hm : m < s.size := by
        have h2 := hold
        rw [parentIter_succ_bottom] at h2
        cases hpm : s.parent m with
        | none =>
          rw [hpm] at h2
          cases h2
        | some x =>
          by_contra hge
          unfold GState.parent at hpm
          rw [getD_of_ge s.parents m none (by
            unfold GState.size at hge
            omega)] at hpm
          cases hpm
      have hb := (WFb_facts s hwf m hm).2
      have := parentIter_lt_of_reaches s s.size m hb (k0 + 1) n hold
      omega


/-! ### The dirtying recursion -/

theorem setDirtyF_zero {M : Type} (n : Nat) (s : GState M) : setDirtyF 0 n s = s := by
  rw [setDirtyF]

theorem setDirtyF_dirty {M : Type} (fuel n : Nat) (s : GState M) (h : s.dirty n = true) :
    setDirtyF (fuel + 1) n s = s := by
  rw [setDirtyF]
  simp [h]

theorem setDirtyF_clean {M : Type} (fuel n : Nat) (s : GState M) (h : s.dirty n = false) :
    setDirtyF (fuel + 1) n s =
      { setDirtyList fuel (childrenOf { s with featDirty := updF s.featDirty n true } n)
          { s with featDirty := updF s.featDirty n true } with
        dirty := updF (setDirtyList fuel
          (childrenOf { s with featDirty := updF s.featDirty n true } n)
          { s with featDirty := updF s.featDirty n true }).dirty n true } := by
  rw [setDirtyF]
  simp [h]

theorem setDirtyList_nil {M : Type} (fuel : Nat) (s : GState M) :
    setDirtyList fuel [] s = s := by
  rw [setDirtyList]

theorem setDirtyList_cons {M : Type} (fuel c : Nat) (cs : List Nat) (s : GState M) :
    setDirtyList fuel (c :: cs) s = setDirtyList fuel cs (setDirtyF fuel c s) := by
  rw [setDirtyList]

/-- Marking a node dirty always succeeds as long as any fuel is left. -/
theorem setDirtyF_dirty_self {M : Type} (fuel n : Nat) (s : GState M) (h : 0 < fuel) :
    (setDirtyF fuel n s).dirty n = true := by
  cases fuel with
  | zero => omega
  | succ f =>
    cases hd : s.dirty n with
    | true =>
      rw [setDirtyF_dirty f n s hd]
      exact hd
    | false =>
      rw [setDirtyF_clean f n s hd]
      exact updF_same _ n true

/-- Frame and monotonicity of the dirtying recursion: only dirty and feature
flags change, they only grow, and they change only inside the subtree. -/
theorem sd_frame {M : Type} : ∀ fuel : Nat,
    (∀ n (s : GState M),
      (setDirtyF fuel n s).parents = s.parents ∧
      (setDirtyF fuel n s).isScene = s.isScene ∧
      (setDirtyF fuel n s).tr = s.tr ∧
      (∀ m, s.dirty m = true → (setDirtyF fuel n s).dirty m = true) ∧
      (∀ m, s.featDirty m = true → (setDirtyF fuel n s).featDirty m = true) ∧
      (∀ m, (setDirtyF fuel n s).dirty m = true →
        s.dirty m = true ∨ ∃ k, parentIter s k m = some n) ∧
      (∀ m, (setDirtyF fuel n s).featDirty m = true →
        s.featDirty m = true ∨ ∃ k, parentIter s k m = some n)) ∧
    (∀ (cs : List Nat) (s : GState M),
      (setDirtyList fuel cs s).parents = s.parents ∧
      (setDirtyList fuel cs s).isScene = s.isScene ∧
      (setDirtyList fuel cs s).tr = s.tr ∧
      (∀ m, s.dirty m = true → (setDirtyList fuel cs s).dirty m = true) ∧
      (∀ m, s.featDirty m = true → (setDirtyList fuel cs s).featDirty m = true) ∧
      (∀ m, (setDirtyList fuel cs s).dirty m = true →
        s.dirty m = true ∨ ∃ c, c ∈ cs ∧ ∃ k, parentIter s k m = some c) ∧
      (∀ m, (setDirtyList fuel cs s).featDirty m = true →
        s.featDirty m = true ∨ ∃ c, c ∈ cs ∧ ∃ k, parentIter s k m = some c)) := by
  intro fuel
  induction fuel with
  | zero =>
    constructor
    · intro n s
      rw [setDirtyF_zero]
      exact ⟨rfl, rfl, rfl, fun m h => h, fun m h => h, fun m h => Or.inl h,
        fun m h => Or.inl h⟩
    · intro cs
      induction cs with
      | nil =>
        intro s
        rw [setDirtyList_nil]
        exact ⟨rfl, rfl, rfl, fun m h => h, fun m h => h, fun m h => Or.inl h,
          fun m h => Or.inl h⟩
      | cons c cs ihc =>
        intro s
        rw [setDirtyList_cons, setDirtyF_zero]
        obtain ⟨p1, p2, p3, p4, p5, p6, p7⟩ := ihc s
        refine ⟨p1, p2, p3, p4, p5, ?_, ?_⟩
        · intro m h
          rcases p6 m h with h2 | ⟨c2, hc2, hk⟩
          · exact Or.inl h2
          · exact Or.inr ⟨c2, List.mem_cons_of_mem _ hc2, hk⟩
        · intro m h
          rcases p7 m h with h2 | ⟨c2, hc2, hk⟩
          · exact Or.inl h2
          · exact Or.inr ⟨c2, List.mem_cons_of_mem _ hc2, hk⟩
  | succ fuel ih =>
    have hF : ∀ n (s : GState M),
        (setDirtyF (fuel + 1) n s).parents = s.parents ∧
        (setDirtyF (fuel + 1) n s).isScene = s.isScene ∧
        (setDirtyF (fuel + 1) n s).tr = s.tr ∧
        (∀ m, s.dirty m = true → (setDirtyF (fuel + 1) n s).dirty m = true) ∧
        (∀ m, s.featDirty m = true → (setDirtyF (fuel + 1) n s).featDirty m = true) ∧
        (∀ m, (setDirtyF (fuel + 1) n s).dirty m = true →
          s.dirty m = true ∨ ∃ k, parentIter s k m = some n) ∧
        (∀ m, (setDirtyF (fuel + 1) n s).featDirty m = true →
          s.featDirty m = true ∨ ∃ k, parentIter s k m = some n) := by
      intro n s
      cases hd : s.dirty n with
      | true =>
        rw [setDirtyF_dirty fuel n s hd]
        exact ⟨rfl, rfl, rfl, fun m h => h, fun m h => h, fun m h => Or.inl h,
          fun m h => Or.inl h⟩
      | false =>
        rw [setDirtyF_clean fuel n s hd]
        obtain ⟨q1, q2, q3, q4, q5, q6, q7⟩ :=
          ih.2 (childrenOf { s with featDirty := updF s.featDirty n true } n)
            { s with featDirty := updF s.featDirty n true }
        refine ⟨q1, q2, q3, ?_, ?_, ?_, ?_⟩
        · intro m h
          exact updF_true_mono _ n m (q4 m h)
        · intro m h
          exact q5 m (updF_true_mono s.featDirty n m h)
        · intro m h
          by_cases hmn : m = n
          · exact Or.inr ⟨0, by rw [hmn]; rfl⟩
          · have h2 : (setDirtyList fuel
                (childrenOf { s with featDirty := updF s.featDirty n true } n)
                { s with featDirty := updF s.featDirty n true }).dirty m = true := by
              have h3 : updF (setDirtyList fuel
                  (childrenOf { s with featDirty := updF s.featDirty n true } n)
                  { s with featDirty := updF s.featDirty n true }).dirty n true m = true := h
              rwa [updF_other _ n true m hmn] at h3
            rcases q6 m h2 with h3 | ⟨c2, hc2, k, hk⟩
            · exact Or.inl h3
            · obtain ⟨hclt, hcp⟩ :=
                (mem_childrenOf { s with featDirty := updF s.featDirty n true } n c2).mp hc2
              refine Or.inr ⟨k + 1, ?_⟩
              have hk2 : parentIter s k m = some c2 :=
                (parentIter_congr { s with featDirty := updF s.featDirty n true } s rfl
                  k m).symm.trans hk
              exact parentIter_top s k m c2 n hk2 hcp
        · intro m h
          rcases q7 m h with h3 | ⟨c2, hc2, k, hk⟩
          · by_cases hmn : m = n
            · exact Or.inr ⟨0, by rw [hmn]; rfl⟩
            · refine Or.inl ?_
              have h4 : updF s.featDirty n true m = true := h3
              rwa [updF_other _ n true m hmn] at h4
          · obtain ⟨hclt, hcp⟩ :=
              (mem_childrenOf { s with featDirty := updF s.featDirty n true } n c2).mp hc2
            refine Or.inr ⟨k + 1, ?_⟩
            have hk2 : parentIter s k m = some c2 :=
              (parentIter_congr { s with featDirty := updF s.featDirty n true } s rfl
                k m).symm.trans hk
            exact parentIter_top s k m c2 n hk2 hcp
    constructor
    · exact hF
    · intro cs
      induction cs with
      | nil =>
        intro s
        rw [setDirtyList_nil]
        exact ⟨rfl, rfl, rfl, fun m h => h, fun m h => h, fun m h => Or.inl h,
          fun m h => Or.inl h⟩
      | cons c cs ihc =>
        intro s
        rw [setDirtyList_cons]
        obtain ⟨r1, r2, r3, r4, r5, r6, r7⟩ := hF c s
        obtain ⟨p1, p2, p3, p4, p5, p6, p7⟩ := ihc (setDirtyF (fuel + 1) c s)
        refine ⟨p1.trans r1, p2.trans r2, p3.trans r3, ?_, ?_, ?_, ?_⟩
        · exact fun m h => p4 m (r4 m h)
        · exact fun m h => p5 m (r5 m h)
        · intro m h
          rcases p6 m h with h2 | ⟨c2, hc2, k, hk⟩
          · rcases r6 m h2 with h3 | ⟨k, hk⟩
            · exact Or.inl h3
            · exact Or.inr ⟨c, List.mem_cons_self c cs, k, hk⟩
          · exact Or.inr ⟨c2, List.mem_cons_of_mem _ hc2, k,
              (parentIter_congr s (setDirtyF (fuel + 1) c s) r1.symm k m).trans hk⟩
        · intro m h
          rcases p7 m h with h2 | ⟨c2, hc2, k, hk⟩
          · rcases r7 m h2 with h3 | ⟨k, hk⟩
            · exact Or.inl h3
            · exact Or.inr ⟨c, List.mem_cons_self c cs, k, hk⟩
          · exact Or.inr ⟨c2, List.mem_cons_of_mem _ hc2, k,
              (parentIter_congr s (setDirtyF (fuel + 1) c s) r1.symm k m).trans hk⟩

/-- The dirty-closure invariant with an exception list: a dirty in-arena
node's features are invalidated and each of its children is dirty unless it
is one of the listed pending nodes. -/
def DOexc {M : Type} (s : GState M) (X : List Nat) : Prop :=
  ∀ p, p < s.size → s.dirty p = true →
    s.featDirty p = true ∧ ∀ c, c ∈ childrenOf s p → c ∈ X ∨ s.dirty c = true

theorem DOexc_of_DirtyOKb {M : Type} (s : GState M) (h : DirtyOKb s = true) :
    DOexc s [] := by
  intro p hp hd
  unfold DirtyOKb at h
  rw [List.all_eq_true] at h
  have h2 := h p (List.mem_range.mpr hp)
  rw [hd] at h2
  simp only [Bool.not_true, Bool.false_or, Bool.and_eq_true] at h2
  obtain ⟨h3, h4⟩ := h2
  refine ⟨h3, ?_⟩
  intro c hc
  rw [List.all_eq_true] at h4
  exact Or.inr (h4 c hc)

theorem DOexc_featmark {M : Type} (s : GState M) (n : Nat) (X : List Nat)
    (hdo : DOexc s X) : DOexc { s with featDirty := updF s.featDirty n true } X := by
  intro p hp hd
  obtain ⟨h1, h2⟩ := hdo p hp hd
  exact ⟨updF_true_mono s.featDirty n p h1, h2⟩

theorem dirty_mark_preserves {M : Type} (s2 : GState M) (n : Nat) (X : List Nat)
    (hdo : DOexc s2 X) (hfeat : s2.featDirty n = true)
    (hchild : ∀ c, c ∈ childrenOf s2 n → c ∈ X ∨ s2.dirty c = true) :
    DOexc { s2 with dirty := updF s2.dirty n true } X := by
  intro p hp hd
  by_cases hpn : p = n
  · subst hpn
    refine ⟨hfeat, ?_⟩
    intro c hc
    rcases hchild c hc with h | h
    · exact Or.inl h
    · exact Or.inr (updF_true_mono s2.dirty p c h)
  · have hd2 : s2.dirty p = true := by
      have h3 : updF s2.dirty n true p = true := hd
      rwa [updF_other s2.dirty n true p hpn] at h3
    obtain ⟨h1, h2⟩ := hdo p hp hd2
    refine ⟨h1, ?_⟩
    intro c hc
    rcases h2 c hc with h | h
    · exact Or.inl h
    · exact Or.inr (updF_true_mono s2.dirty n c h)

/-- The dirtying recursion preserves the exception-listed dirty closure and,
with enough fuel for every chain into the node, marks the node dirty. -/
theorem sd_dirty {M : Type} : ∀ fuel : Nat,
    (∀ n (s : GState M) (X : List Nat), DOexc s X →
      (∀ m k, m < s.size → parentIter s k m = some n → k < fuel) →
      DOexc (setDirtyF fuel n s) X ∧
        (0 < fuel → (setDirtyF fuel n s).dirty n = true)) ∧
    (∀ (cs : List Nat) (s : GState M) (X : List Nat), DOexc s X →
      (∀ c, c ∈ cs → ∀ m k, m < s.size → parentIter s k m = some c → k < fuel) →
      DOexc (setDirtyList fuel cs s) X ∧
        (0 < fuel → ∀ c, c ∈ cs → (setDirtyList fuel cs s).dirty c = true)) := by
  intro fuel
  induction fuel with
  | zero =>
    constructor
    · intro n s X hdo hfu
      rw [setDirtyF_zero]
      exact ⟨hdo, by omega⟩
    · intro cs
      induction cs with
      | nil =>
        intro s X hdo hfu
        rw [setDirtyList_nil]
        exact ⟨hdo, by omega⟩
      | cons c cs ihc =>
        intro s X hdo hfu
        rw [setDirtyList_cons, setDirtyF_zero]
        obtain ⟨h1, h2⟩ := ihc s X hdo (fun c2 hc2 => hfu c2 (List.mem_cons_of_mem _ hc2))
        exact ⟨h1, by omega⟩
  | succ fuel ih =>
    have hF : ∀ n (s : GState M) (X : List Nat), DOexc s X →
        (∀ m k, m < s.size → parentIter s k m = some n → k < fuel + 1) →
        DOexc (setDirtyF (fuel + 1) n s) X ∧ (setDirtyF (fuel + 1) n s).dirty n = true := by
      intro n s X hdo hfu
      cases hd : s.dirty n with
      | true =>
        rw [setDirtyF_dirty fuel n s hd]
        exact ⟨hdo, hd⟩
      | false =>
        rw [setDirtyF_clean fuel n s hd]
        obtain ⟨f1, f2, f3, f4, f5, f6, f7⟩ :=
          (sd_frame fuel).2 (childrenOf { s with featDirty := updF s.featDirty n true } n)
            { s with featDirty := updF s.featDirty n true }
        have hdo1 : DOexc ({ s with featDirty := updF s.featDirty n true } : GState M) X :=
          DOexc_featmark s n X hdo
        have hfu1 : ∀ c, c ∈ childrenOf { s with featDirty := updF s.featDirty n true } n →
            ∀ m k, m < ({ s with featDirty := updF s.featDirty n true } : GState M).size →
              parentIter { s with featDirty := updF s.featDirty n true } k m = some c →
              k < fuel := by
          intro c hc m k hm hk
          obtain ⟨hclt, hcp⟩ :=
            (mem_childrenOf { s with featDirty := updF s.featDirty n true } n c).mp hc
          have hk2 : parentIter s k m = some c :=
            (parentIter_congr { s with featDirty := updF s.featDirty n true } s rfl
              k m).symm.trans hk
          have hhit : parentIter s (k + 1) m = some n := parentIter_top s k m c n hk2 hcp
          have := hfu m (k + 1) hm hhit
          omega
        obtain ⟨hdo2, hlist⟩ :=
          ih.2 (childrenOf { s with featDirty := updF s.featDirty n true } n)
            { s with featDirty := updF s.featDirty n true } X hdo1 hfu1
        refine ⟨?_, updF_same _ n true⟩
        apply dirty_mark_preserves _ n X hdo2
        · exact f5 n (updF_same s.featDirty n true)
        · intro c hc
          have hc1 : c ∈ childrenOf { s with featDirty := updF s.featDirty n true } n := by
            rw [childrenOf_congr
              (setDirtyList fuel (childrenOf { s with featDirty := updF s.featDirty n true } n)
                { s with featDirty := updF s.featDirty n true })
              { s with featDirty := updF s.featDirty n true } f1 n] at hc
            exact hc
          obtain ⟨hclt, hcp⟩ :=
            (mem_childrenOf { s with featDirty := updF s.featDirty n true } n c).mp hc1
          have hfpos : 0 < fuel := by
            have hhit : parentIter s 1 c = some n := parentIter_top s 0 c c n rfl hcp
            have := hfu c 1 hclt hhit
            omega
          exact Or.inr (hlist hfpos c hc1)
    constructor
    · intro n s X hdo hfu
      obtain ⟨h1, h2⟩ := hF n s X hdo hfu
      exact ⟨h1, fun _ => h2⟩
    · intro cs
      induction cs with
      | nil =>
        intro s X hdo hfu
        rw [setDirtyList_nil]
        exact ⟨hdo, fun _ c hc => absurd hc (List.not_mem_nil c)⟩
      | cons c cs ihc =>
        intro s X hdo hfu
        rw [setDirtyList_cons]
        obtain ⟨hdoc, hdc⟩ := hF c s X hdo (hfu c (List.mem_cons_self c cs))
        obtain ⟨fp1, fp2, fp3, fp4, fp5, fp6, fp7⟩ := (sd_frame (fuel + 1)).1 c s
        have hsz : (setDirtyF (fuel + 1) c s).size = s.size := by
          unfold GState.size
          rw [fp1]
        obtain ⟨hdor, hrest⟩ := ihc (setDirtyF (fuel + 1) c s) X hdoc
          (by
            intro c2 hc2 m k hm hk
            apply hfu c2 (List.mem_cons_of_mem _ hc2) m k
            · rw [hsz] at hm
              exact hm
            · exact (parentIter_congr s (setDirtyF (fuel + 1) c s) fp1.symm k m).trans hk)
        refine ⟨hdor, ?_⟩
        intro hpos c2 hc2
        rcases List.mem_cons.mp hc2 with hh | hh
        · subst hh
          obtain ⟨l1, l2, l3, l4, l5, l6, l7⟩ :=
            (sd_frame (fuel + 1)).2 cs (setDirtyF (fuel + 1) c2 s)
          exact l4 c2 hdc
        · exact hrest hpos c2 hh

/-- From the exception-free dirty closure, a dirty node's whole subtree is
dirty with invalidated features. -/
theorem DOexc_descend {M : Type} (s : GState M) (hdo : DOexc s []) :
    ∀ k m n, n < s.size → s.dirty n = true → parentIter s k m = some n →
      s.dirty m = true ∧ s.featDirty m = true := by
  intro k
  induction k with
  | zero =>
    intro m n hn hd h
    have hmn : m = n := Option.some.inj h
    subst hmn
    exact ⟨hd, (hdo m hn hd).1⟩
  | succ k ih =>
    intro m n hn hd h
    have e : parentIter s (k + 1) m =
        match parentIter s k m with
        | none => none
        | some x => s.parent x := rfl
    rw [e] at h
    cases hx : parentIter s k m with
    | none =>
      rw [hx] at h
      cases h
    | some x =>
      rw [hx] at h
      have hpx : s.parent x = some n := h
      have hxlt : x < s.size := by
        by_contra hge
        unfold GState.parent at hpx
        rw [getD_of_ge s.parents x none (by unfold GState.size at hge; omega)] at hpx
        cases hpx
      have hxc : x ∈ childrenOf s n := (mem_childrenOf s n x).mpr ⟨hxlt, hpx⟩
      have hdx : s.dirty x = true := by
        rcases (hdo n hn hd).2 x hxc with hm | hm
        · cases hm
        · exact hm
      exact ih m x hxlt hdx hx

/-- Run `setDirty` on a state satisfying the (possibly excepted) dirty closure
with bounded chains: the closure is preserved and the node ends dirty. -/
theorem setDirty_dirties {M : Type} (s : GState M) (n : Nat) (X : List Nat)
    (hdo : DOexc s X)
    (hfu : ∀ m k, m < s.size → parentIter s k m = some n → k < s.size + 1) :
    DOexc (setDirty s n) X ∧ (setDirty s n).dirty n = true := by
  obtain ⟨h1, h2⟩ := (sd_dirty (s.size + 1)).1 n s X hdo hfu
  exact ⟨h1, h2 (Nat.succ_pos _)⟩


/-! ### The mutable-tree claim theorems -/

theorem DOexc_relink {M : Type} (s : GState M) (n : Nat) (np : Option Nat)
    (hdo : DOexc s []) : DOexc { s with parents := s.parents.set n np } [n] := by
  intro p hp hd
  have hp2 : p < s.size := by
    have hpv : p < (s.parents.set n np).length := hp
    simp only [List.length_set] at hpv
    exact hpv
  obtain ⟨h1, h2⟩ := hdo p hp2 hd
  refine ⟨h1, ?_⟩
  intro c hc
  by_cases hcn : c = n
  · exact Or.inl (by rw [hcn]; exact List.mem_singleton.mpr rfl)
  · obtain ⟨hclt, hcp⟩ := (mem_childrenOf { s with parents := s.parents.set n np } p c).mp hc
    have hcpv : (s.parents.set n np).getD c none = some p := hcp
    rw [getD_set_ne s.parents n c np none hcn] at hcpv
    have hcp2 : s.parent c = some p := hcpv
    have hclt2 : c < s.size := by
      have hcltv : c < (s.parents.set n np).length := hclt
      simp only [List.length_set] at hcltv
      exact hcltv
    rcases h2 c ((mem_childrenOf s p c).mpr ⟨hclt2, hcp2⟩) with h | h
    · cases h
    · exact Or.inr h

theorem DOexc_discharge {M : Type} (s : GState M) (n : Nat) (hdo : DOexc s [n])
    (hd : s.dirty n = true) : DOexc s [] := by
  intro p hp hdp
  obtain ⟨h1, h2⟩ := hdo p hp hdp
  refine ⟨h1, fun c hc => ?_⟩
  rcases h2 c hc with h | h
  · have hcn : c = n := List.mem_singleton.mp h
    exact Or.inr (by rw [hcn]; exact hd)
  · exact Or.inr h

/-- C6: after `setDirty(n)` on a well-formed state satisfying the dirty
closure, every node of `n`'s subtree (each node whose parent chain reaches
`n`) is dirty and its features are invalidated; `setDirty` on an already
dirty node returns immediately with the state unchanged; and after a
successful `setParent(n, np)` the whole subtree of `n` in the relinked tree
is dirty with invalidated features. -/
theorem c6_dirty_closure {M : Type} (s : GState M) (n : Nat)
    (hwf : WFb s = true) (hdok : DirtyOKb s = true) (hn : n < s.size) :
    (∀ m k, m < s.size → parentIter s k m = some n →
      (setDirty s n).dirty m = true ∧ (setDirty s n).featDirty m = true) ∧
    (s.dirty n = true → setDirty s n = s) ∧
    (∀ np, s.parent n ≠ np → s.isScene n = false →
      isAncestorOfB s (s.size + 1) n np = false →
      ∀ m k, m < s.size →
        parentIter { s with parents := s.parents.set n np } k m = some n →
        (setParentF s n np).dirty m = true ∧ (setParentF s n np).featDirty m = true) := by
  refine ⟨?_, ?_, ?_⟩
  · intro m k hm hit
    obtain ⟨hdo2, hdn⟩ := setDirty_dirties s n [] (DOexc_of_DirtyOKb s hdok)
      (fun m2 k2 hm2 hit2 => by
        have hb := (WFb_facts s hwf m2 hm2).2
        have := parentIter_lt_of_reaches s s.size m2 hb k2 n hit2
        omega)
    have hpar : (setDirty s n).parents = s.parents := ((sd_frame (s.size + 1)).1 n s).1
    have hsz : (setDirty s n).size = s.size := by
      unfold GState.size
      rw [hpar]
    exact DOexc_descend (setDirty s n) hdo2 k m n (by rw [hsz]; exact hn) hdn
      (by rw [parentIter_congr (setDirty s n) s hpar k m]; exact hit)
  · intro hd
    unfold setDirty
    exact setDirtyF_dirty s.size n s hd
  · intro np hne hsc hguard m k hm hit
    have hsp : setParentF s n np = setDirty { s with parents := s.parents.set n np } n := by
      unfold setParentF
      rw [if_neg (fun h => h.elim hne (fun h2 => by rw [hsc] at h2; cases h2))]
      rw [if_neg (by rw [hguard]; exact Bool.false_ne_true)]
    have hs1sz : ({ s with parents := s.parents.set n np } : GState M).size = s.size := by
      unfold GState.size
      simp [List.length_set]
    obtain ⟨hdo2, hdn⟩ := setDirty_dirties { s with parents := s.parents.set n np } n [n]
      (DOexc_relink s n np (DOexc_of_DirtyOKb s hdok))
      (fun m2 k2 hm2 hit2 => by
        have := relink_iter_bound s n np hwf hn hguard m2 k2 hit2
        rw [hs1sz]
        omega)
    have hdo3 : DOexc (setDirty { s with parents := s.parents.set n np } n) [] :=
      DOexc_discharge _ n hdo2 hdn
    have hpar2 : (setDirty { s with parents := s.parents.set n np } n).parents =
        ({ s with parents := s.parents.set n np } : GState M).parents :=
      ((sd_frame (({ s with parents := s.parents.set n np } : GState M).size + 1)).1 n
        { s with parents := s.parents.set n np }).1
    have hsz2 : (setDirty { s with parents := s.parents.set n np } n).size = s.size := by
      unfold GState.size
      rw [hpar2]
      show (s.parents.set n np).length = s.parents.length
      simp
    rw [hsp]
    exact DOexc_descend (setDirty { s with parents := s.parents.set n np } n) hdo3 k m n
      (by rw [hsz2]; exact hn) hdn
      (by
        rw [parentIter_congr (setDirty { s with parents := s.parents.set n np } n)
          { s with parents := s.parents.set n np } hpar2 k m]
        exact hit)

/-- C7: `setParent` is a strict no-op when the argument is already the parent,
when the object is the scene, or when the cycle guard finds the argument in
the object's own subtree; otherwise it updates exactly this node's parent
link to the argument and marks the node dirty. -/
theorem c7_setParent_cases {M : Type} (s : GState M) (n : Nat) (np : Option Nat) :
    (s.parent n = np → setParentF s n np = s) ∧
    (s.isScene n = true → setParentF s n np = s) ∧
    (isAncestorOfB s (s.size + 1) n np = true → setParentF s n np = s) ∧
    (n < s.size → s.parent n ≠ np → s.isScene n = false →
      isAncestorOfB s (s.size + 1) n np = false →
      (setParentF s n np).parent n = np ∧ (setParentF s n np).dirty n = true ∧
      (∀ m, m ≠ n → (setParentF s n np).parent m = s.parent m) ∧
      (setParentF s n np).isScene = s.isScene ∧ (setParentF s n np).tr = s.tr) := by
  refine ⟨?_, ?_, ?_, ?_⟩
  · intro h
    unfold setParentF
    rw [if_pos (Or.inl h)]
  · intro h
    unfold setParentF
    rw [if_pos (Or.inr h)]
  · intro h
    unfold setParentF
    by_cases h1 : s.parent n = np ∨ s.isScene n = true
    · rw [if_pos h1]
    · rw [if_neg h1, if_pos h]
  · intro hn hne hsc hguard
    have hsp : setParentF s n np = setDirty { s with parents := s.parents.set n np } n := by
      unfold setParentF
      rw [if_neg (fun h => h.elim hne (fun h2 => by rw [hsc] at h2; cases h2))]
      rw [if_neg (by rw [hguard]; exact Bool.false_ne_true)]
    obtain ⟨f1, f2, f3, f4, f5, f6, f7⟩ :=
      (sd_frame (({ s with parents := s.parents.set n np } : GState M).size + 1)).1 n
        { s with parents := s.parents.set n np }
    rw [hsp]
    refine ⟨?_, ?_, ?_, f2, f3⟩
    · show (setDirtyF (({ s with parents := s.parents.set n np } : GState M).size + 1) n
          { s with parents := s.parents.set n np }).parents.getD n none = np
      rw [f1]
      show (s.parents.set n np).getD n none = np
      exact getD_set_self s.parents n np none (by unfold GState.size at hn; omega)
    · exact setDirtyF_dirty_self _ n _ (Nat.succ_pos _)
    · intro m hm
      show (setDirtyF (({ s with parents := s.parents.set n np } : GState M).size + 1) n
          { s with parents := s.parents.set n np }).parents.getD m none = s.parent m
      rw [f1]
      show (s.parents.set n np).getD m none = s.parent m
      rw [getD_set_ne s.parents n m np none hm]
      rfl

/-- A three-node arena: scene 0 with the two children 1 and 2, nothing dirty. -/
def s7 : GState Nat where
  parents := [none, some 0, some 0]
  isScene n := n == 0
  tr _ := 0
  dirty _ := false
  featDirty _ := false

/-- The same arena with node 2 already dirty. -/
def s10 : GState Nat := { s7 with dirty := fun m => m == 2 }

/-- A two-node arena: scene 0 with the single child 1. -/
def c8state : GState Nat where
  parents := [none, some 0]
  isScene n := n == 0
  tr _ := 0
  dirty _ := false
  featDirty _ := false

/-- C6 witness: dirtying the scene of the three-node arena dirties its child
and invalidates the child's features. -/
theorem c6_dirty_closure_witness :
    (setDirty s7 0).dirty 1 = true ∧ (setDirty s7 0).featDirty 1 = true :=
  (c6_dirty_closure s7 0 (by decide) (by decide) (by decide)).1 1 1 (by decide) rfl

/-- C7 witness: reparenting node 2 under node 1 in the three-node arena
relinks it and marks it dirty. -/
theorem c7_setParent_cases_witness :
    (setParentF s7 2 (some 1)).parent 2 = some 1 ∧ (setParentF s7 2 (some 1)).dirty 2 = true :=
  ⟨((c7_setParent_cases s7 2 (some 1)).2.2.2 (by decide) (by decide) rfl (by decide)).1,
   ((c7_setParent_cases s7 2 (some 1)).2.2.2 (by decide) (by decide) rfl (by decide)).2.1⟩

/-- C8 counterexample: `setParent(node 1, none)` on the two-node arena
succeeds and detaches node 1, a non-scene node with a parent — so setParent
can bring a non-root node into a parentless state. -/
theorem c8_counterexample :
    (setParentF c8state 1 none).parent 1 = none ∧
    c8state.isScene 1 = false ∧ c8state.parent 1 = some 0 := by
  refine ⟨?_, rfl, rfl⟩
  have hsp : setParentF c8state 1 none =
      setDirty { c8state with parents := c8state.parents.set 1 none } 1 := by
    unfold setParentF
    rw [if_neg (by decide)]
    rw [if_neg (by rw [isAncestorOfB_none]; exact Bool.false_ne_true)]
  rw [hsp]
  have f1 := ((sd_frame
    (({ c8state with parents := c8state.parents.set 1 none } : GState Nat).size + 1)).1 1
    { c8state with parents := c8state.parents.set 1 none }).1
  show (setDirtyF
      (({ c8state with parents := c8state.parents.set 1 none } : GState Nat).size + 1) 1
      { c8state with parents := c8state.parents.set 1 none }).parents.getD 1 none = none
  rw [f1]
  rfl

/-- C8 (amended): `setParent` with an explicit `none` argument detaches any
in-arena non-scene node that has a parent, so the root-uniqueness invariant
is not preserved by `setParent`: a non-root node can be made parentless. -/
theorem c8_amended {M : Type} (s : GState M) (n : Nat)
    (hn : n < s.size) (hsc : s.isScene n = false) (hp : s.parent n ≠ none) :
    (setParentF s n none).parent n = none := by
  have hsp : setParentF s n none =
      setDirty { s with parents := s.parents.set n none } n := by
    unfold setParentF
    rw [if_neg (fun h => h.elim hp (fun h2 => by rw [hsc] at h2; cases h2))]
    rw [if_neg (by rw [isAncestorOfB_none]; exact Bool.false_ne_true)]
  rw [hsp]
  have f1 := ((sd_frame
    (({ s with parents := s.parents.set n none } : GState M).size + 1)).1 n
    { s with parents := s.parents.set n none }).1
  show (setDirtyF (({ s with parents := s.parents.set n none } : GState M).size + 1) n
      { s with parents := s.parents.set n none }).parents.getD n none = none
  rw [f1]
  show (s.parents.set n none).getD n none = none
  exact getD_set_self s.parents n none none (by unfold GState.size at hn; omega)

/-- C8 amended witness: node 1 of the two-node arena ends parentless. -/
theorem c8_amended_witness : (setParentF c8state 1 none).parent 1 = none :=
  c8_amended c8state 1 (by decide) rfl (by decide)

/-- C10: `setDirty` never changes the parent links, the scene flags or the
local transformations; it changes dirty and feature flags only inside the
node's subtree, and only from clean to dirty. -/
theorem c10_frame {M : Type} (s : GState M) (n : Nat) :
    (setDirty s n).parents = s.parents ∧
    (setDirty s n).isScene = s.isScene ∧
    (setDirty s n).tr = s.tr ∧
    (∀ m, s.dirty m = true → (setDirty s n).dirty m = true) ∧
    (∀ m, (setDirty s n).dirty m = true →
      s.dirty m = true ∨ ∃ k, parentIter s k m = some n) ∧
    (∀ m, (setDirty s n).featDirty m = true →
      s.featDirty m = true ∨ ∃ k, parentIter s k m = some n) := by
  obtain ⟨h1, h2, h3, h4, h5, h6, h7⟩ := (sd_frame (s.size + 1)).1 n s
  exact ⟨h1, h2, h3, h4, h6, h7⟩

/-- C10 witness: dirtying node 1 keeps the links and keeps node 2 dirty. -/
theorem c10_frame_witness :
    (setDirty s10 1).parents = s10.parents ∧ (setDirty s10 1).dirty 2 = true :=
  ⟨(c10_frame s10 1).1, (c10_frame s10 1).2.2.2.1 2 rfl⟩

end Magnum
